import Mathlib

/-!
# Verification of the typedjson decoding engine

Shallow embedding of `src/typedjson/decoding.py`: the decode dispatcher, the
seven decoding strategies (`decode_as_union`, `decode_as_tuple`,
`decode_as_list`, `decode_as_primitive`, `decode_as_class`, `decode_as_dict`,
`decode_as_any`) and the error model (`TypeMismatch`, `UnsupportedDecoding`,
`InitializationError`, `DecodingError`).

Python values (the `json: Any` argument and decoded results alike) are embedded
as the inductive `Value`.  Outcomes are embedded as data (`Outcome`), and a
Python exception escaping the engine is embedded as the `Except.error` side of
`Res`, so that un-caught `TypeError`/`RuntimeError`/... raised inside the engine
is observable.

The engine recursion always descends into a structurally smaller type
descriptor, so the embedding recurses on a fuel counter initialised with
`sizeOf` of the descriptor; `decode_unfold` below proves the fuel is
irrelevant, giving the exact fixpoint equation of the source dispatcher.
-/

namespace TypedJson

/-- A navigation path through the input tree: `Path = Tuple[str, ...]`. -/
abbrev Path := List String

/-- Runtime type tags of the embedded Python values (`type(json)`). -/
inductive PyRT where
  | rstr | rint | rbool | rnone | rfloat | rdate | rdatetime
  | rlist | rtuple | rdict | robject
deriving DecidableEq, Repr

/-- The six exact built-in scalar target types of `decode_as_primitive`:
`primitives = (str, int, bool, type(None), date, datetime)`. -/
inductive PrimT where
  | pstr | pint | pbool | pnone | pdate | pdatetime
deriving DecidableEq, Repr

/-- The runtime type tag a `PrimT` target requires under `type(json) is type_`. -/
def PrimT.rt : PrimT → PyRT
  | .pstr => .rstr
  | .pint => .rint
  | .pbool => .rbool
  | .pnone => .rnone
  | .pdate => .rdate
  | .pdatetime => .rdatetime

/-- An embedded Python value: possible inputs to and outputs of `decode`.
`date`/`datetime` carry an opaque ordinal; `float` carries an exact rational
(the engine never does float arithmetic beyond `float(json)` widening).
`record` embeds a constructed class instance: its name plus its
keyword-initialised fields, the field names stored as string values; `dict`
keys are arbitrary values since decoded keys need not be strings. -/
inductive Value where
  | null
  | bool (b : Bool)
  | int (n : Int)
  | float (q : Rat)
  | str (s : String)
  | date (d : Nat)
  | datetime (d : Nat)
  | list (xs : List Value)
  | tuple (xs : List Value)
  | dict (kvs : List (Value × Value))
  | record (name : String) (fields : List (Value × Value))

/-- `type(v)` on an embedded value. -/
def Value.rt : Value → PyRT
  | .null => .rnone
  | .bool _ => .rbool
  | .int _ => .rint
  | .float _ => .rfloat
  | .str _ => .rstr
  | .date _ => .rdate
  | .datetime _ => .rdatetime
  | .list _ => .rlist
  | .tuple _ => .rtuple
  | .dict _ => .rdict
  | .record _ _ => .robject

mutual

/-- Python `==` on embedded values (structural equality), used by dict key
insertion and key-membership tests. -/
def vbeq : Value → Value → Bool
  | .null, y => match y with | .null => true | _ => false
  | .bool a, y => match y with | .bool b => a == b | _ => false
  | .int a, y => match y with | .int b => a == b | _ => false
  | .float a, y => match y with | .float b => a == b | _ => false
  | .str a, y => match y with | .str b => a == b | _ => false
  | .date a, y => match y with | .date b => a == b | _ => false
  | .datetime a, y => match y with | .datetime b => a == b | _ => false
  | .list xs, y => match y with | .list ys => vbeqL xs ys | _ => false
  | .tuple xs, y => match y with | .tuple ys => vbeqL xs ys | _ => false
  | .dict xs, y => match y with | .dict ys => vbeqP xs ys | _ => false
  | .record n fs, y => match y with
    | .record m gs => n == m && vbeqP fs gs
    | _ => false

/-- Pointwise `vbeq` on value lists. -/
def vbeqL : List Value → List Value → Bool
  | [], ys => match ys with | [] => true | _ => false
  | x :: xs, ys => match ys with
    | y :: ys2 => vbeq x y && vbeqL xs ys2
    | _ => false

/-- Pointwise `vbeq` on key/value pair lists. -/
def vbeqP : List (Value × Value) → List (Value × Value) → Bool
  | [], ys => match ys with | [] => true | _ => false
  | (k, v) :: xs, ys => match ys with
    | (l, w) :: ys2 => vbeq k l && vbeq v w && vbeqP xs ys2
    | _ => false

end

/-- Python `str(v)`, used for path segments (`str(key)`, `str(index)`).
Scalar renderings follow Python; container renderings are a fixed canonical
form (only their injectivity on the scalar cases matters to the engine). -/
def pyStr : Value → String
  | .null => "None"
  | .bool true => "True"
  | .bool false => "False"
  | .int n => toString n
  | .float q => toString q
  | .str s => s
  | .date d => "date(" ++ toString d ++ ")"
  | .datetime d => "datetime(" ++ toString d ++ ")"
  | .list _ => "[...]"
  | .tuple _ => "(...)"
  | .dict _ => "{...}"
  | .record nm _ => "<" ++ nm ++ ">"

/-- Python `len(v)`: `none` when the value has no `len` (so `len` raises). -/
def pyLen : Value → Option Nat
  | .str s => some s.length
  | .list xs => some xs.length
  | .tuple xs => some xs.length
  | .dict kvs => some kvs.length
  | _ => none

/-- Python iteration over a value (`none` when not `Iterable`): strings yield
their characters as one-character strings, dicts yield their keys. -/
def iterElems : Value → Option (List Value)
  | .str s => some (s.data.map (fun c => .str (String.mk [c])))
  | .list xs => some xs
  | .tuple xs => some xs
  | .dict kvs => some (kvs.map Prod.fst)
  | _ => none

mutual

/-- Python hashability of an embedded value: lists and dicts are unhashable,
a tuple is hashable iff its components are; everything else hashes. -/
def hashableV : Value → Bool
  | .list _ => false
  | .dict _ => false
  | .tuple xs => hashableL xs
  | _ => true

/-- Hashability of each component of a tuple. -/
def hashableL : List Value → Bool
  | [] => true
  | x :: xs => hashableV x && hashableL xs

end

/-- Python dict insertion `d[k] = v`: overwrite in place keeps the original
position of an existing equal key, otherwise append. -/
def insertKV (kvs : List (Value × Value)) (k v : Value) : List (Value × Value) :=
  match kvs with
  | [] => [(k, v)]
  | (k0, v0) :: rest =>
    if vbeq k0 k then (k0, v) :: rest else (k0, v0) :: insertKV rest k v

/-- Python `name in json` for a dict value and a `str` key. -/
def hasKeyStr (kvs : List (Value × Value)) (name : String) : Bool :=
  kvs.any (fun kv => vbeq kv.1 (.str name))

/-- Python `json.get(name)` for a dict value and a `str` key (`None` when the
key is absent, as in Python). -/
def pyGet (kvs : List (Value × Value)) (name : String) : Value :=
  ((kvs.find? (fun kv => vbeq kv.1 (.str name))).map Prod.snd).getD .null

/-- Python `isinstance(v, S)` for the scalar supertypes the engine consults:
`bool` is a subtype of `int` and `datetime` of `date`, exactly as in Python. -/
def isinstanceP (v : Value) (s : PrimT) : Bool :=
  match s, v with
  | .pstr, .str _ => true
  | .pint, .int _ => true
  | .pint, .bool _ => true
  | .pbool, .bool _ => true
  | .pnone, .null => true
  | .pdate, .date _ => true
  | .pdate, .datetime _ => true
  | .pdatetime, .datetime _ => true
  | _, _ => false

/-! ## Error model (`decoding.py` lines 23-103) -/

/-- The `TypeError` a record constructor raises; compared structurally through
its message in the embedding. -/
structure PyTypeError where
  msg : String
deriving DecidableEq, Repr

/-- `FailureReason = Union[TypeMismatch, UnsupportedDecoding, InitializationError]`. -/
inductive FailureReason where
  | typeMismatch (path : Path)
  | unsupportedDecoding (path : Path)
  | initializationError (path : Path) (underlying : PyTypeError)
deriving DecidableEq, Repr

/-- `DecodingError` wraps exactly one `FailureReason`. -/
structure DecodingError where
  reason : FailureReason
deriving DecidableEq, Repr

/-- The `__eq__` methods of the three reason classes: an `isinstance` test on
the other operand (so reasons of different classes are never equal), then
field-wise comparison (`path`, and for `InitializationError` also
`underlying`). -/
def reasonEq : FailureReason → FailureReason → Bool
  | .typeMismatch p, .typeMismatch q => p = q
  | .typeMismatch _, _ => false
  | .unsupportedDecoding p, .unsupportedDecoding q => p = q
  | .unsupportedDecoding _, _ => false
  | .initializationError p u, .initializationError q w => u = w && p = q
  | .initializationError _ _, _ => false

/-- `DecodingError.__eq__`: equal exactly when the wrapped reasons are. -/
def decodingErrorEq (a b : DecodingError) : Bool :=
  reasonEq a.reason b.reason

/-- A strategy/dispatcher outcome as data: a decoded value or a returned
`DecodingError` (never raised). -/
inductive Outcome where
  | ok (v : Value)
  | err (e : DecodingError)

/-- An un-caught Python exception escaping the engine. `recursionError`
stands for exhausting the interpreter stack and is proven unreachable for the
fuel the wrapper supplies. -/
inductive PyExn where
  | typeError (msg : String)
  | indexError
  | runtimeError
  | nameError
  | recursionError
deriving DecidableEq, Repr

/-- Result of running a strategy or the dispatcher: an outcome, or an escaped
exception. -/
abbrev Res := Except PyExn Outcome

/-- `isinstance(result.reason, UnsupportedDecoding)` on a returned error. -/
def isUnsupported (e : DecodingError) : Bool :=
  match e.reason with
  | .unsupportedDecoding _ => true
  | _ => false

/-! ## Type descriptors and the reflection provider

The engine inspects descriptors only through `typedjson.annotation`
(`origin_of`, `args_of`, `hints_of`, `supertype_of`), which is not part of
the decoding source; the descriptor inductive below and the four functions on
it embed that collaborator's documented interface.  In `tup`, the element
list may contain `Option.none`, which stands for the literal `...`
(`Ellipsis`) variadic marker. -/

/-- A type descriptor: the target-shape argument `type_` of `decode`. -/
inductive TypeDesc where
  | prim (p : PrimT)
  | float
  | union (alts : List TypeDesc)
  | typevar (name : String)
  | tup (args : List (Option TypeDesc))
  | list (elem : TypeDesc)
  | dict (key : TypeDesc) (val : TypeDesc)
  | cls (name : String) (fields : List (String × TypeDesc × Option Value))
  | newtype (name : String) (base : PrimT)
  | any

/-- Structural origins distinguished by `origin_of`. -/
inductive Origin where
  | ounion | otuple | olist | odict | onone
deriving DecidableEq, Repr

/-- Modelled from the spec: `origin_of` of the missing `typedjson.annotation`
module — the structural category of a descriptor (`Union`/`tuple`/`list`/
`dict`), or none for scalars, records, type variables and the wildcard. -/
def origin_of : TypeDesc → Origin
  | .union _ => .ounion
  | .tup _ => .otuple
  | .list _ => .olist
  | .dict _ _ => .odict
  | _ => .onone

/-- Modelled from the spec: `hints_of` of the missing `typedjson.annotation`
module — the ordered field name/descriptor hints of a record class, or none
for a descriptor that is not a record shape. -/
def hints_of : TypeDesc → Option (List (String × TypeDesc))
  | .cls _ fields => some (fields.map (fun f => (f.1, f.2.1)))
  | _ => none

/-- Modelled from the spec: `supertype_of` of the missing
`typedjson.annotation` module — the declared wire supertype of a non-primitive
scalar (a `NewType`), or none. -/
def supertype_of : TypeDesc → Option PrimT
  | .newtype _ base => some base
  | _ => none

/-- `type_.__class__ is TypeVar`: the unresolved generic-parameter check of
`decode_as_union`. -/
def is_typevar : TypeDesc → Bool
  | .typevar _ => true
  | _ => false

/-- Modelled from the spec: keyword-style record construction
(`type_(**parameters)` for a caller-defined record class, absent from the
decoding source).  Each declared field takes the provided value, else its
declared default; if any field without a default is missing, construction
raises a `TypeError` naming the missing fields, which `decode_as_class`
catches. -/
def ctor (name : String) (fields : List (String × TypeDesc × Option Value))
    (params : List (String × Value)) : Except PyTypeError Value :=
  let missing := (fields.filter
    (fun f => !(params.any (fun q => q.1 = f.1)) && f.2.2.isNone)).map (fun f => f.1)
  if missing.isEmpty then
    .ok (.record name (fields.filterMap (fun f =>
      match params.find? (fun q => q.1 = f.1) with
      | some q => some (Value.str f.1, q.2)
      | none => f.2.2.map (fun v => (Value.str f.1, v)))))
  else
    .error ⟨"missing arguments: " ++ String.intercalate ", " missing⟩

mutual

/-- Structural size of a descriptor: the fuel bound for the engine, since
every recursive `decode` call of the source descends into a strictly smaller
descriptor. -/
def tdSize : TypeDesc → Nat
  | .prim _ => 1
  | .float => 1
  | .union alts => 1 + tdSizeL alts
  | .typevar _ => 1
  | .tup args => 1 + tdSizeO args
  | .list e => 1 + tdSize e
  | .dict k v => 1 + tdSize k + tdSize v
  | .cls _ fields => 1 + tdSizeF fields
  | .newtype _ _ => 1
  | .any => 1

/-- Size of a list of alternatives. -/
def tdSizeL : List TypeDesc → Nat
  | [] => 0
  | t :: ts => 1 + tdSize t + tdSizeL ts

/-- Size of a tuple descriptor list (the `...` marker counts one). -/
def tdSizeO : List (Option TypeDesc) → Nat
  | [] => 0
  | Option.none :: ts => 1 + tdSizeO ts
  | some t :: ts => 1 + tdSize t + tdSizeO ts

/-- Size of a record hint list. -/
def tdSizeF : List (String × TypeDesc × Option Value) → Nat
  | [] => 0
  | (_, t, _) :: ts => 1 + tdSize t + tdSizeF ts

end

/-! ## The decoding strategies (`decoding.py` lines 106-312)

Each strategy that recurses receives the dispatcher as the `dec` argument;
the wrapper `decode` below ties the knot. -/

/-- The dispatcher signature every strategy shares. -/
abbrev Decoder := TypeDesc → Value → Path → Res

/-- `decode_as_primitive` (lines 134-157): float widening from `int`/`float`
inputs, exact `type(json) is type_` matching for the six built-in scalars,
wire-supertype rehydration via `isinstance`, otherwise not applicable. -/
def decode_as_primitive (type_ : TypeDesc) (json : Value) (path : Path) : Res :=
  let supertype := supertype_of type_
  match type_ with
  | .float =>
    .ok (match json with
      | .int n => .ok (.float (n : Rat))
      | .float q => .ok (.float q)
      | _ => .err ⟨.typeMismatch path⟩)
  | .prim p => .ok (if json.rt = p.rt then .ok json else .err ⟨.typeMismatch path⟩)
  | _ =>
    match supertype with
    | some s => .ok (if isinstanceP json s then .ok json else .err ⟨.typeMismatch path⟩)
    | none => .ok (.err ⟨.unsupportedDecoding path⟩)

/-- The entry loop of `decode_as_dict` (lines 170-179): per input entry, in
iteration order, decode the value then the key — both at `path + (str(key),)`
— returning the first failure immediately, then insert into the result dict
(`dict_decoded[decoded_key] = decoded_value` raises `TypeError` on an
unhashable decoded key). -/
def dictLoop (dec : Decoder) (kd vd : TypeDesc) (path : Path) :
    List (Value × Value) → List (Value × Value) → Res
  | [], acc => .ok (.ok (.dict acc))
  | (key, element) :: rest, acc =>
    match dec vd element (path ++ [pyStr key]) with
    | .error exn => .error exn
    | .ok (.err e) => .ok (.err e)
    | .ok (.ok decodedValue) =>
      match dec kd key (path ++ [pyStr key]) with
      | .error exn => .error exn
      | .ok (.err e) => .ok (.err e)
      | .ok (.ok decodedKey) =>
        if hashableV decodedKey then
          dictLoop dec kd vd path rest (insertKV acc decodedKey decodedValue)
        else .error (.typeError "unhashable type")

/-- `decode_as_dict` (lines 160-183): applicable when the input is a dict and
the descriptor's origin is `dict`; otherwise `UnsupportedDecoding`. -/
def decode_as_dict (dec : Decoder) (type_ : TypeDesc) (json : Value) (path : Path) : Res :=
  match type_, json with
  | .dict kd vd, .dict kvs => dictLoop dec kd vd path kvs []
  | _, _ => .ok (.err ⟨.unsupportedDecoding path⟩)

/-- `decode_as_any` (lines 186-193): the wildcard passthrough. -/
def decode_as_any (type_ : TypeDesc) (json : Value) (path : Path) : Res :=
  match type_ with
  | .any => .ok (.ok json)
  | _ => .ok (.err ⟨.unsupportedDecoding path⟩)

/-- The parameter comprehension of `decode_as_class` (line 208): decode, in
hint order, every hinted field whose name is a key of the input, keeping each
outcome (errors are inspected only after the whole comprehension ran). -/
def classParams (dec : Decoder) (kvs : List (Value × Value)) (path : Path) :
    List (String × TypeDesc) → Except PyExn (List (String × Outcome))
  | [] => .ok []
  | (key, td) :: rest =>
    if hasKeyStr kvs key then
      match dec td (pyGet kvs key) (path ++ [key]) with
      | .error exn => .error exn
      | .ok r => (classParams dec kvs path rest).map (fun rs => (key, r) :: rs)
    else classParams dec kvs path rest

/-- The first decoding error among the computed parameters, in hint order
(lines 210-212). -/
def firstErr : List (String × Outcome) → Option DecodingError
  | [] => none
  | (_, .err e) :: _ => some e
  | (_, .ok _) :: rest => firstErr rest

/-- `decode_as_class` (lines 196-220): applicable when the input is a dict
and the descriptor has field hints; decodes present hinted fields, returns
the first field error, then constructs the record, wrapping a construction
`TypeError` as `InitializationError` at the current path. -/
def decode_as_class (dec : Decoder) (type_ : TypeDesc) (json : Value) (path : Path) : Res :=
  match type_, json with
  | .cls name fields, .dict kvs =>
    match classParams dec kvs path (fields.map (fun f => (f.1, f.2.1))) with
    | .error exn => .error exn
    | .ok params =>
      match firstErr params with
      | some e => .ok (.err e)
      | none =>
        match ctor name fields (params.filterMap (fun q =>
            match q.2 with | .ok v => some (q.1, v) | .err _ => none)) with
        | .ok obj => .ok (.ok obj)
        | .error e => .ok (.err ⟨.initializationError path e⟩)
  | _, _ => .ok (.err ⟨.unsupportedDecoding path⟩)

/-- The alternative loop of `decode_as_union` (lines 235-240): try each
alternative in declared order at the unchanged path, stop at the first
success, otherwise keep the last outcome. -/
def unionLoop (dec : Decoder) (json : Value) (path : Path) : TypeDesc → List TypeDesc → Res
  | t, [] => dec t json path
  | t, t2 :: rest2 =>
    match dec t json path with
    | .error exn => .error exn
    | .ok (.ok v) => .ok (.ok v)
    | .ok (.err _) => unionLoop dec json path t2 rest2

/-- `decode_as_union` (lines 223-242): not applicable unless the origin is
`Union`; `UnsupportedDecoding` when any alternative is a bare `TypeVar`; with
no alternatives the trailing `return decoded` reads an unbound local
(`NameError`). -/
def decode_as_union (dec : Decoder) (type_ : TypeDesc) (json : Value) (path : Path) : Res :=
  match type_ with
  | .union args =>
    if args.any is_typevar then .ok (.err ⟨.unsupportedDecoding path⟩)
    else
      match args with
      | [] => .error .nameError
      | t :: rest => unionLoop dec json path t rest
  | _ => .ok (.err ⟨.unsupportedDecoding path⟩)

/-- `_required_length` (lines 251-252): `len(args) - 2` when the descriptor
list ends in the `...` marker, else `len(args)`; `args[-1]` on an empty list
raises `IndexError`. -/
def required_length (args : List (Option TypeDesc)) : Except PyExn Int :=
  match args.getLast? with
  | Option.none => .error .indexError
  | some Option.none => .ok ((args.length : Int) - 2)
  | some (some _) => .ok ((args.length : Int))

/-- `zip(_iter_args(args), json)` (lines 254-265, 276-278): the generator
yields each declared descriptor, re-yielding the previous one forever once the
`...` marker is reached (a leading marker hits the bare `raise`, a
`RuntimeError`); zipping stops when either side is exhausted, pulling the
generator first as `zip` does. -/
def zip_args (args : List (Option TypeDesc)) (last : Option TypeDesc) (elts : List Value) :
    Except PyExn (List (TypeDesc × Value)) :=
  match args, last, elts with
  | [], _, _ => .ok []
  | Option.none :: _, Option.none, _ => .error .runtimeError
  | Option.none :: rest, some l, elts =>
    match elts with
    | [] => .ok []
    | e :: es =>
      match zip_args (Option.none :: rest) (some l) es with
      | .error exn => .error exn
      | .ok ps => .ok ((l, e) :: ps)
  | some t :: rest, _, elts =>
    match elts with
    | [] => .ok []
    | e :: es =>
      match zip_args rest (some t) es with
      | .error exn => .error exn
      | .ok ps => .ok ((t, e) :: ps)

/-- The positional loop of `decode_as_tuple` (lines 276-283): decode pair
`i` at `path + (str(i),)`, abort on the first failure, collect successes. -/
def tupleLoop (dec : Decoder) (path : Path) :
    List (TypeDesc × Value) → Nat → List Value → Res
  | [], _, acc => .ok (.ok (.tuple acc))
  | (t, e) :: rest, index, acc =>
    match dec t e (path ++ [toString index]) with
    | .error exn => .error exn
    | .ok (.err de) => .ok (.err de)
    | .ok (.ok v) => tupleLoop dec path rest (index + 1) (acc ++ [v])

/-- `decode_as_tuple` (lines 245-287): `None` is a mismatch, `len(json)` is
taken before any guard (raising `TypeError` for unsized inputs), too-short
inputs are a mismatch, then the positional loop runs over the zipped
descriptor stream. -/
def decode_as_tuple (dec : Decoder) (type_ : TypeDesc) (json : Value) (path : Path) : Res :=
  match type_ with
  | .tup args =>
    match json with
    | .null => .ok (.err ⟨.typeMismatch path⟩)
    | _ =>
      match pyLen json with
      | Option.none => .error (.typeError "object has no len")
      | some length =>
        match required_length args with
        | .error exn => .error exn
        | .ok req =>
          if (length : Int) < req then .ok (.err ⟨.typeMismatch path⟩)
          else
            match zip_args args Option.none ((iterElems json).getD []) with
            | .error exn => .error exn
            | .ok pairs => tupleLoop dec path pairs 0 []
  | _ => .ok (.err ⟨.unsupportedDecoding path⟩)

/-- The element loop of `decode_as_list` (lines 303-308). -/
def listLoop (dec : Decoder) (elemT : TypeDesc) (path : Path) :
    List Value → Nat → List Value → Res
  | [], _, acc => .ok (.ok (.list acc))
  | e :: rest, index, acc =>
    match dec elemT e (path ++ [toString index]) with
    | .error exn => .error exn
    | .ok (.err de) => .ok (.err de)
    | .ok (.ok v) => listLoop dec elemT path rest (index + 1) (acc ++ [v])

/-- `decode_as_list` (lines 290-312): applicable when the origin is `list`;
non-iterable input is a `TypeMismatch`, then every element is decoded at the
path extended by its index. -/
def decode_as_list (dec : Decoder) (type_ : TypeDesc) (json : Value) (path : Path) : Res :=
  match type_ with
  | .list elemT =>
    match iterElems json with
    | Option.none => .ok (.err ⟨.typeMismatch path⟩)
    | some elts => listLoop dec elemT path elts 0 []
  | _ => .ok (.err ⟨.unsupportedDecoding path⟩)

/-! ## The dispatcher (`decode`, lines 106-131) -/

/-- The strategy loop of `decode` (lines 122-131): consult each strategy in
order; a success is returned immediately; a definitive failure overwrites the
best result; an `UnsupportedDecoding` leaves it unchanged. -/
def dispatchLoop (t : TypeDesc) (j : Value) (p : Path) :
    List Decoder → Outcome → Res
  | [], best => .ok best
  | d :: rest, best =>
    match d t j p with
    | .error exn => .error exn
    | .ok (.ok v) => .ok (.ok v)
    | .ok (.err de) =>
      dispatchLoop t j p rest (if isUnsupported de then best else .err de)

/-- One unfolding of the dispatcher: the fixed strategy tuple of lines
109-117 consulted by `dispatchLoop` starting from
`DecodingError(UnsupportedDecoding(path))`. -/
def dispatchBody (dec : Decoder) : Decoder := fun type_ json path =>
  dispatchLoop type_ json path
    [decode_as_union dec, decode_as_tuple dec, decode_as_list dec,
     decode_as_primitive, decode_as_class dec, decode_as_dict dec,
     decode_as_any]
    (.err ⟨.unsupportedDecoding path⟩)

/-- The dispatcher, recursing on a fuel counter.  Fuel `0` stands for Python
exhausting its interpreter stack; `decode_unfold` below shows the wrapper's
fuel never reaches it. -/
def decodeF : Nat → Decoder
  | 0 => fun _ _ _ => .error .recursionError
  | fuel + 1 => dispatchBody (decodeF fuel)

/-- `decode(type_, json, path=())`: the engine's entry point.  Every
recursive call of the source descends into a structurally smaller descriptor,
so `tdSize type_` fuel is always sufficient (`decode_unfold`). -/
def decode (type_ : TypeDesc) (json : Value) (path : Path) : Res :=
  decodeF (tdSize type_) type_ json path

/-! ## Specification-side definitions used to state the claims -/

/-- The claimed dispatcher combination rule, folded over the strategy
outcomes: a success is returned at once; a definitive failure overwrites the
best result; an `UnsupportedDecoding` leaves the best result unchanged. -/
def combineFrom (best : Outcome) : List Outcome → Outcome
  | [] => best
  | .ok v :: _ => .ok v
  | .err de :: rest => combineFrom (if isUnsupported de then best else .err de) rest

/-- The claimed dispatcher result: `combineFrom` started from
`Error(UnsupportedDecoding(path))`. -/
def combineSpec (p : Path) (outs : List Outcome) : Outcome :=
  combineFrom (.err ⟨.unsupportedDecoding p⟩) outs

/-- The seven strategies in the dispatcher's fixed order — Sum-Type,
Fixed/Variadic Sequence, Homogeneous Sequence, Primitive/Scalar, Record,
Generic Mapping, Wildcard — each applied to the same descriptor, value and
path. -/
def strategyResults (t : TypeDesc) (j : Value) (p : Path) : List Res :=
  [decode_as_union decode t j p, decode_as_tuple decode t j p,
   decode_as_list decode t j p, decode_as_primitive t j p,
   decode_as_class decode t j p, decode_as_dict decode t j p,
   decode_as_any t j p]

/-- The claimed sum-type rule on the list of per-alternative results: first
success, else the last alternative's outcome (an escaped exception
propagates). -/
def firstSuccessElseLast : List Res → Res
  | [] => .error .nameError
  | [r] => r
  | r :: r2 :: rest =>
    match r with
    | .error exn => .error exn
    | .ok (.ok v) => .ok (.ok v)
    | .ok (.err _) => firstSuccessElseLast (r2 :: rest)

/-- The keyword parameters the Record strategy passes to construction: one
`(name, value)` per hinted field whose name is a key of the input, in hint
order — absent fields are omitted entirely. -/
def presentParams (fields : List (String × TypeDesc × Option Value))
    (kvs : List (Value × Value)) (vals : String → Value) : List (String × Value) :=
  fields.filterMap (fun f => if hasKeyStr kvs f.1 then some (f.1, vals f.1) else none)

/-- How a single strategy's result surfaces through the full dispatcher when
every other strategy reports `UnsupportedDecoding`: successes and definitive
errors pass through, an `UnsupportedDecoding` (at any path) leaves the
dispatcher's initial `UnsupportedDecoding(path)` best result in place. -/
def absorb (p : Path) : Res → Res
  | .error exn => .error exn
  | .ok (.ok v) => .ok (.ok v)
  | .ok (.err de) =>
    .ok (.err (if isUnsupported de then ⟨.unsupportedDecoding p⟩ else de))

/-- The one strategy that can be applicable to a descriptor of a given head:
every strategy other than this one reports `UnsupportedDecoding` on such a
descriptor whatever the input value is.  For scalar-like heads this is the
Primitive/Scalar strategy (which itself reports `UnsupportedDecoding` on a
bare type variable). -/
def ownStrategy : TypeDesc → Decoder
  | .union _ => decode_as_union decode
  | .tup _ => decode_as_tuple decode
  | .list _ => decode_as_list decode
  | .dict _ _ => decode_as_dict decode
  | .cls _ _ => decode_as_class decode
  | .any => decode_as_any
  | _ => decode_as_primitive

mutual

/-- The generic-tree representation of a decoded value: records and dicts
become string-keyed mappings (dict keys through `str`), tuples become
sequences, scalars are themselves. -/
def toTree : Value → Value
  | .null => .null
  | .bool b => .bool b
  | .int n => .int n
  | .float q => .float q
  | .str s => .str s
  | .date d => .date d
  | .datetime d => .datetime d
  | .list xs => .list (toTreeL xs)
  | .tuple xs => .list (toTreeL xs)
  | .dict kvs => .dict (toTreeP kvs)
  | .record _ fs => .dict (toTreeP fs)

/-- `toTree` on a list of values. -/
def toTreeL : List Value → List Value
  | [] => []
  | x :: xs => toTree x :: toTreeL xs

/-- `toTree` on dict entries: keys through `str`, values recursively. -/
def toTreeP : List (Value × Value) → List (Value × Value)
  | [] => []
  | (k, v) :: kvs => (.str (pyStr k), toTree v) :: toTreeP kvs

end

/-- Whether a mapping key is a string not repeated among the later entries:
the key-side condition of the generic-tree well-formedness check. -/
def keyOkP : Value → List (Value × Value) → Bool
  | .str s, rest => !(hasKeyStr rest s)
  | _, _ => false

mutual

/-- Whether a value is a node of the generic input tree of the spec's data
model: null, boolean, number, string, sequence, or string-keyed mapping with
distinct keys — no tuples, records, or date objects. -/
def treeVal : Value → Bool
  | .null => true
  | .bool _ => true
  | .int _ => true
  | .float _ => true
  | .str _ => true
  | .date _ => false
  | .datetime _ => false
  | .tuple _ => false
  | .record _ _ => false
  | .list xs => treeValL xs
  | .dict kvs => treeValP kvs

/-- `treeVal` on sequence elements. -/
def treeValL : List Value → Bool
  | [] => true
  | x :: xs => treeVal x && treeValL xs

/-- `treeVal` on mapping entries: each key a string not repeated later, each
value a tree. -/
def treeValP : List (Value × Value) → Bool
  | [] => true
  | (k, v) :: rest => keyOkP k rest && treeVal v && treeValP rest

end

/-- The per-position descriptor stream of a variadic tuple descriptor
`(t₁, …, tₙ, ...)` zipped against the input elements: each declared
descriptor in turn, then the last one repeated for the remaining elements. -/
def zipExtend (tds : List TypeDesc) (elts : List Value) : List (TypeDesc × Value) :=
  match tds, elts with
  | [], _ => []
  | [t], [] => []
  | [t], e :: es => (t, e) :: zipExtend [t] es
  | _ :: _ :: _, [] => []
  | t :: t2 :: tds, e :: es => (t, e) :: zipExtend (t2 :: tds) es

/-- Trace of a successful homogeneous-sequence loop: element `i` (counting
from `idx`) decodes to the `i`-th output at path `p + (str(idx+i),)`. -/
inductive LoopOk (E : TypeDesc) (p : Path) : Nat → List Value → List Value → Prop
  | nil (idx : Nat) : LoopOk E p idx [] []
  | cons {idx : Nat} {e v : Value} {elts vs : List Value} :
      decode E e (p ++ [toString idx]) = .ok (.ok v) →
      LoopOk E p (idx + 1) elts vs →
      LoopOk E p idx (e :: elts) (v :: vs)

/-- Trace of a successful fixed-arity-sequence loop over zipped
(descriptor, element) pairs. -/
inductive TLoopOk (p : Path) : Nat → List (TypeDesc × Value) → List Value → Prop
  | nil (idx : Nat) : TLoopOk p idx [] []
  | cons {idx : Nat} {t : TypeDesc} {e v : Value}
      {rest : List (TypeDesc × Value)} {vs : List Value} :
      decode t e (p ++ [toString idx]) = .ok (.ok v) →
      TLoopOk p (idx + 1) rest vs →
      TLoopOk p idx ((t, e) :: rest) (v :: vs)

/-- Trace of a successful mapping loop: per entry, the value then the key
decode at `p + (str(key),)`, and the decoded key is hashable. -/
inductive DLoopOk (K V : TypeDesc) (p : Path) :
    List (Value × Value) → List (Value × Value) → Prop
  | nil : DLoopOk K V p [] []
  | cons {k v dk dv : Value} {rest out : List (Value × Value)} :
      decode V v (p ++ [pyStr k]) = .ok (.ok dv) →
      decode K k (p ++ [pyStr k]) = .ok (.ok dk) →
      hashableV dk = true →
      DLoopOk K V p rest out →
      DLoopOk K V p ((k, v) :: rest) ((dk, dv) :: out)

/-- Trace of a successful record-parameter comprehension: hinted fields
present in the input decode successfully in hint order, absent ones are
skipped. -/
inductive CParamsOk (kvs : List (Value × Value)) (p : Path) :
    List (String × TypeDesc) → List (String × Value) → Prop
  | nil : CParamsOk kvs p [] []
  | consPresent {n : String} {d : TypeDesc} {rest : List (String × TypeDesc)}
      {out : List (String × Value)} {v : Value} :
      hasKeyStr kvs n = true →
      decode d (pyGet kvs n) (p ++ [n]) = .ok (.ok v) →
      CParamsOk kvs p rest out →
      CParamsOk kvs p ((n, d) :: rest) ((n, v) :: out)
  | consAbsent {n : String} {d : TypeDesc} {rest : List (String × TypeDesc)}
      {out : List (String × Value)} :
      hasKeyStr kvs n = false →
      CParamsOk kvs p rest out →
      CParamsOk kvs p ((n, d) :: rest) out

/-- Descriptors on which decoding is idempotent through the generic-tree
round trip.  The semantic side conditions are exactly what the
counterexample to the unrestricted claim forces: a mapping's key descriptor
must decode string keys only to themselves (otherwise the `str(key)` round
trip changes the key), a record default must itself survive the round trip
(otherwise re-decoding the materialised default can fail), and for a
two-alternative sum type the first alternative must keep failing on the
round-tripped output of the second (otherwise re-decoding picks a different
alternative). -/
inductive Good : TypeDesc → Prop
  | prim (q : PrimT) : Good (.prim q)
  | flt : Good .float
  | newtype (nm : String) (b : PrimT) : Good (.newtype nm b)
  | any : Good .any
  | list {e : TypeDesc} : Good e → Good (.list e)
  | tupFixed {tds : List TypeDesc} : (∀ t ∈ tds, Good t) → Good (.tup (tds.map some))
  | tupVar {tds : List TypeDesc} : tds ≠ [] → (∀ t ∈ tds, Good t) →
      Good (.tup (tds.map some ++ [Option.none]))
  | dict {k v : TypeDesc} : Good v →
      (∀ s pp r, decode k (.str s) pp = .ok (.ok r) → r = .str s) →
      Good (.dict k v)
  | cls {nm : String} {fields : List (String × TypeDesc × Option Value)} :
      (∀ f ∈ fields, Good f.2.1) →
      (fields.map (fun f => f.1)).Nodup →
      (∀ f ∈ fields, ∀ v, f.2.2 = some v →
        ∀ pp, decode f.2.1 (toTree v) pp = .ok (.ok v)) →
      Good (.cls nm fields)
  | unionTwo {a b : TypeDesc} : Good a → Good b →
      (∀ jv pp e r, treeVal jv = true → decode a jv pp = .ok (.err e) →
        decode b jv pp = .ok (.ok r) →
        ∃ e2, decode a (toTree r) pp = .ok (.err e2)) →
      Good (.union [a, b])

/-- The record field list a successful construction produces. -/
def ctorFields (fields : List (String × TypeDesc × Option Value))
    (params : List (String × Value)) : List (Value × Value) :=
  fields.filterMap (fun f =>
    match params.find? (fun q => q.1 = f.1) with
    | some q => some (Value.str f.1, q.2)
    | none => f.2.2.map (fun v => (Value.str f.1, v)))

/-- The value a successfully constructed record holds for a declared field:
the provided keyword argument if one was passed, else the declared default. -/
def fieldVal (f : String × TypeDesc × Option Value)
    (params : List (String × Value)) : Value :=
  match params.find? (fun q => q.1 = f.1) with
  | some q => q.2
  | none => f.2.2.getD .null

/-- The per-name field value of a successfully constructed record, read off
the declared field list: the constructed value for a declared name, `None`
for an unknown one. -/
def clsVals (fields : List (String × TypeDesc × Option Value))
    (out : List (String × Value)) : String → Value :=
  fun s =>
    match fields.find? (fun g => g.1 = s) with
    | some g => fieldVal g out
    | none => .null

/-- Idempotence of decoding at a descriptor: a successful decode of a
generic-tree input re-decodes, through the output's generic-tree
representation, to the same value. -/
def IdemAt (t : TypeDesc) : Prop :=
  ∀ (j : Value) (p : Path) (r : Value), treeVal j = true →
    decode t j p = .ok (.ok r) → decode t (toTree r) p = .ok (.ok r)

/-! ## Fuel adequacy: the wrapper's fuel is always sufficient -/

theorem tdSize_pos (t : TypeDesc) : 1 ≤ tdSize t := by
  cases t <;> simp only [tdSize] <;> omega

theorem tdSize_lt_tdSizeL {t : TypeDesc} : ∀ {alts : List TypeDesc},
    t ∈ alts → tdSize t < 1 + tdSizeL alts
  | a :: as, h => by
    rcases List.mem_cons.mp h with h | h
    · subst h; simp only [tdSizeL]; omega
    · have := tdSize_lt_tdSizeL h
      simp only [tdSizeL]; omega

theorem tdSize_lt_tdSizeO {t : TypeDesc} : ∀ {args : List (Option TypeDesc)},
    some t ∈ args → tdSize t < 1 + tdSizeO args
  | a :: as, h => by
    rcases List.mem_cons.mp h with h | h
    · subst h; simp only [tdSizeO]; omega
    · have := tdSize_lt_tdSizeO h
      cases a <;> simp only [tdSizeO] <;> omega

theorem tdSize_lt_tdSizeF {d : TypeDesc} :
    ∀ {fields : List (String × TypeDesc × Option Value)},
    (∃ n o, (n, d, o) ∈ fields) → tdSize d < 1 + tdSizeF fields
  | [], h => by rcases h with ⟨n, o, h⟩; cases h
  | f :: fs, h => by
    rcases h with ⟨n, o, h⟩
    rcases List.mem_cons.mp h with h | h
    · subst h; simp only [tdSizeF]; omega
    · have := tdSize_lt_tdSizeF ⟨n, o, h⟩
      rcases f with ⟨n2, d2, o2⟩
      simp only [tdSizeF]; omega

theorem zip_args_mem : ∀ (elts : List Value) (args : List (Option TypeDesc))
    (last : Option TypeDesc) (pairs : List (TypeDesc × Value)),
    zip_args args last elts = .ok pairs →
    ∀ pr ∈ pairs, some pr.1 ∈ args ∨ last = some pr.1 := by
  intro elts
  induction elts with
  | nil =>
    intro args last pairs h pr hm
    rcases args with _ | ⟨a | a, rest⟩ <;> rcases last with _ | l <;>
      simp [zip_args] at h <;> subst h <;> cases hm
  | cons e es ih =>
    intro args last pairs h pr hm
    rcases args with _ | ⟨a | a, rest⟩
    · simp [zip_args] at h; subst h; cases hm
    · rcases last with _ | l
      · simp [zip_args] at h
      · rw [zip_args] at h
        cases hz : zip_args (Option.none :: rest) (some l) es with
        | error exn => rw [hz] at h; cases h
        | ok ps =>
          rw [hz] at h
          injection h with h
          subst h
          rcases List.mem_cons.mp hm with rfl | hm2
          · exact Or.inr rfl
          · rcases ih _ _ _ hz pr hm2 with h2 | h2
            · exact Or.inl h2
            · exact Or.inr h2
    · rw [zip_args] at h
      cases hz : zip_args rest (some a) es with
      | error exn => rw [hz] at h; cases h
      | ok ps =>
        rw [hz] at h
        injection h with h
        subst h
        rcases List.mem_cons.mp hm with rfl | hm2
        · exact Or.inl (List.mem_cons_self _ _)
        · rcases ih _ _ _ hz pr hm2 with h2 | h2
          · exact Or.inl (List.mem_cons_of_mem _ h2)
          · cases h2
            exact Or.inl (List.mem_cons_self _ _)

theorem unionLoop_congr {d1 d2 : Decoder} {j : Value} {p : Path} :
    ∀ (rest : List TypeDesc) (t : TypeDesc),
    (∀ a ∈ t :: rest, ∀ j2 p2, d1 a j2 p2 = d2 a j2 p2) →
    unionLoop d1 j p t rest = unionLoop d2 j p t rest
  | [], t, h => by
    simp only [unionLoop]
    exact h t (List.mem_cons_self _ _) j p
  | t2 :: rest2, t, h => by
    have hh := h t (List.mem_cons_self _ _) j p
    have ih := @unionLoop_congr d1 d2 j p rest2 t2 (by
      intro a ha j2 p2
      exact h a (List.mem_cons_of_mem _ ha) j2 p2)
    rw [unionLoop, unionLoop, hh]
    cases d2 t j p with
    | error exn => rfl
    | ok o =>
      cases o with
      | ok v => rfl
      | err e => exact ih

theorem decode_as_union_congr {d1 d2 : Decoder} {t : TypeDesc} {j : Value} {p : Path}
    (h : ∀ t2, tdSize t2 < tdSize t → ∀ j2 p2, d1 t2 j2 p2 = d2 t2 j2 p2) :
    decode_as_union d1 t j p = decode_as_union d2 t j p := by
  cases t with
  | union alts =>
    simp only [decode_as_union]
    by_cases hv : alts.any is_typevar
    · simp [hv]
    · simp only [Bool.not_eq_true] at hv
      simp only [hv]
      cases alts with
      | nil => rfl
      | cons a rest =>
        exact unionLoop_congr rest a (by
          intro b hb j2 p2
          exact h b (tdSize_lt_tdSizeL hb) j2 p2)
  | prim q => rfl
  | float => rfl
  | typevar nm => rfl
  | tup args => rfl
  | list e => rfl
  | dict k v => rfl
  | cls nm fs => rfl
  | newtype nm b => rfl
  | any => rfl

theorem tupleLoop_congr {d1 d2 : Decoder} {p : Path} :
    ∀ (pairs : List (TypeDesc × Value)) (idx : Nat) (acc : List Value),
    (∀ pr ∈ pairs, ∀ j2 p2, d1 pr.1 j2 p2 = d2 pr.1 j2 p2) →
    tupleLoop d1 p pairs idx acc = tupleLoop d2 p pairs idx acc
  | [], _, _, _ => rfl
  | (t, e) :: rest, idx, acc, h => by
    simp only [tupleLoop, h (t, e) (List.mem_cons_self _ _)]
    cases d2 t e (p ++ [toString idx]) with
    | error exn => rfl
    | ok o => cases o with
      | ok v =>
        exact tupleLoop_congr rest (idx + 1) (acc ++ [v]) (by
          intro pr hpr j2 p2
          exact h pr (List.mem_cons_of_mem _ hpr) j2 p2)
      | err de => rfl

theorem decode_as_tuple_congr {d1 d2 : Decoder} {t : TypeDesc} {j : Value} {p : Path}
    (h : ∀ t2, tdSize t2 < tdSize t → ∀ j2 p2, d1 t2 j2 p2 = d2 t2 j2 p2) :
    decode_as_tuple d1 t j p = decode_as_tuple d2 t j p := by
  cases t with
  | tup args =>
    have main : ∀ elts : List Value,
        (match zip_args args Option.none elts with
         | .error exn => (.error exn : Res)
         | .ok pairs => tupleLoop d1 p pairs 0 []) =
        (match zip_args args Option.none elts with
         | .error exn => (.error exn : Res)
         | .ok pairs => tupleLoop d2 p pairs 0 []) := by
      intro elts
      cases hz : zip_args args Option.none elts with
      | error exn => rfl
      | ok pairs =>
        exact tupleLoop_congr pairs 0 [] (by
          intro pr hpr j2 p2
          rcases zip_args_mem _ _ _ _ hz pr hpr with hmem | hmem
          · exact h pr.1 (tdSize_lt_tdSizeO hmem) j2 p2
          · cases hmem)
    simp only [decode_as_tuple]
    cases j <;> try rfl
    all_goals {
      cases hr : required_length args with
      | error exn => rfl
      | ok req =>
        simp only [pyLen]
        split
        · rfl
        · exact main _
    }
  | prim q => rfl
  | float => rfl
  | typevar nm => rfl
  | union alts => rfl
  | list e => rfl
  | dict k v => rfl
  | cls nm fs => rfl
  | newtype nm b => rfl
  | any => rfl

theorem listLoop_congr {d1 d2 : Decoder} {E : TypeDesc} {p : Path}
    (h : ∀ j2 p2, d1 E j2 p2 = d2 E j2 p2) :
    ∀ (elts : List Value) (idx : Nat) (acc : List Value),
    listLoop d1 E p elts idx acc = listLoop d2 E p elts idx acc
  | [], _, _ => rfl
  | e :: rest, idx, acc => by
    simp only [listLoop, h e (p ++ [toString idx])]
    cases d2 E e (p ++ [toString idx]) with
    | error exn => rfl
    | ok o =>
      cases o with
      | ok v => exact listLoop_congr h rest (idx + 1) (acc ++ [v])
      | err de => rfl

theorem decode_as_list_congr {d1 d2 : Decoder} {t : TypeDesc} {j : Value} {p : Path}
    (h : ∀ t2, tdSize t2 < tdSize t → ∀ j2 p2, d1 t2 j2 p2 = d2 t2 j2 p2) :
    decode_as_list d1 t j p = decode_as_list d2 t j p := by
  cases t with
  | list E =>
    simp only [decode_as_list]
    cases iterElems j with
    | none => rfl
    | some elts =>
      exact listLoop_congr (by
        intro j2 p2
        exact h E (by simp only [tdSize]; omega) j2 p2) elts 0 []
  | prim q => rfl
  | float => rfl
  | typevar nm => rfl
  | union alts => rfl
  | tup args => rfl
  | dict k v => rfl
  | cls nm fs => rfl
  | newtype nm b => rfl
  | any => rfl

theorem dictLoop_congr {d1 d2 : Decoder} {kd vd : TypeDesc} {p : Path}
    (hk : ∀ j2 p2, d1 kd j2 p2 = d2 kd j2 p2)
    (hv : ∀ j2 p2, d1 vd j2 p2 = d2 vd j2 p2) :
    ∀ (kvs acc : List (Value × Value)),
    dictLoop d1 kd vd p kvs acc = dictLoop d2 kd vd p kvs acc
  | [], _ => rfl
  | (key, element) :: rest, acc => by
    simp only [dictLoop, hv element (p ++ [pyStr key])]
    cases d2 vd element (p ++ [pyStr key]) with
    | error exn => rfl
    | ok o =>
      cases o with
      | err e => rfl
      | ok dv =>
        simp only [hk key (p ++ [pyStr key])]
        cases d2 kd key (p ++ [pyStr key]) with
        | error exn => rfl
        | ok o2 =>
          cases o2 with
          | err e => rfl
          | ok dk =>
            cases hh : hashableV dk with
            | false => simp only [hh]; rfl
            | true =>
              simp only [hh]
              exact dictLoop_congr hk hv rest (insertKV acc dk dv)

theorem decode_as_dict_congr {d1 d2 : Decoder} {t : TypeDesc} {j : Value} {p : Path}
    (h : ∀ t2, tdSize t2 < tdSize t → ∀ j2 p2, d1 t2 j2 p2 = d2 t2 j2 p2) :
    decode_as_dict d1 t j p = decode_as_dict d2 t j p := by
  cases t with
  | dict kd vd =>
    cases j <;> try rfl
    next kvs =>
      simp only [decode_as_dict]
      exact dictLoop_congr
        (by intro j2 p2; exact h kd (by simp only [tdSize]; omega) j2 p2)
        (by intro j2 p2; exact h vd (by simp only [tdSize]; omega) j2 p2)
        kvs []
  | prim q => cases j <;> rfl
  | float => cases j <;> rfl
  | typevar nm => cases j <;> rfl
  | union alts => cases j <;> rfl
  | tup args => cases j <;> rfl
  | list e => cases j <;> rfl
  | cls nm fs => cases j <;> rfl
  | newtype nm b => cases j <;> rfl
  | any => cases j <;> rfl

theorem classParams_congr {d1 d2 : Decoder} {kvs : List (Value × Value)} {p : Path} :
    ∀ (hints : List (String × TypeDesc)),
    (∀ q ∈ hints, ∀ j2 p2, d1 q.2 j2 p2 = d2 q.2 j2 p2) →
    classParams d1 kvs p hints = classParams d2 kvs p hints
  | [], _ => rfl
  | (key, td) :: rest, h => by
    have ih := @classParams_congr d1 d2 kvs p rest (by
      intro q hq j2 p2
      exact h q (List.mem_cons_of_mem _ hq) j2 p2)
    simp only [classParams, h (key, td) (List.mem_cons_self _ _), ih]

theorem decode_as_class_congr {d1 d2 : Decoder} {t : TypeDesc} {j : Value} {p : Path}
    (h : ∀ t2, tdSize t2 < tdSize t → ∀ j2 p2, d1 t2 j2 p2 = d2 t2 j2 p2) :
    decode_as_class d1 t j p = decode_as_class d2 t j p := by
  cases t with
  | cls nm fields =>
    cases j <;> try rfl
    next kvs =>
      simp only [decode_as_class]
      rw [classParams_congr (fields.map (fun f => (f.1, f.2.1))) (by
        intro q hq j2 p2
        rcases List.mem_map.mp hq with ⟨f, hf, rfl⟩
        exact h f.2.1 (tdSize_lt_tdSizeF ⟨f.1, f.2.2, by
          rcases f with ⟨n, d, o⟩; exact hf⟩) j2 p2)]
  | prim q => cases j <;> rfl
  | float => cases j <;> rfl
  | typevar nm => cases j <;> rfl
  | union alts => cases j <;> rfl
  | tup args => cases j <;> rfl
  | list e => cases j <;> rfl
  | dict kd vd => cases j <;> rfl
  | newtype nm b => cases j <;> rfl
  | any => cases j <;> rfl

theorem dispatchLoop_congr {t : TypeDesc} {j : Value} {p : Path} :
    ∀ {ds1 ds2 : List Decoder} (best : Outcome),
    List.Forall₂ (fun a b => a t j p = b t j p) ds1 ds2 →
    dispatchLoop t j p ds1 best = dispatchLoop t j p ds2 best := by
  intro ds1 ds2 best h
  induction h generalizing best with
  | nil => rfl
  | cons h1 _ ih =>
    simp only [dispatchLoop, h1]
    rename_i a b l1 l2 hfa
    cases b t j p with
    | error exn => rfl
    | ok o =>
      cases o with
      | ok v => rfl
      | err de => exact ih _

theorem dispatchBody_congr {d1 d2 : Decoder} {t : TypeDesc} {j : Value} {p : Path}
    (h : ∀ t2, tdSize t2 < tdSize t → ∀ j2 p2, d1 t2 j2 p2 = d2 t2 j2 p2) :
    dispatchBody d1 t j p = dispatchBody d2 t j p := by
  unfold dispatchBody
  exact dispatchLoop_congr _ (by
    refine List.Forall₂.cons (decode_as_union_congr h) ?_
    refine List.Forall₂.cons (decode_as_tuple_congr h) ?_
    refine List.Forall₂.cons (decode_as_list_congr h) ?_
    refine List.Forall₂.cons rfl ?_
    refine List.Forall₂.cons (decode_as_class_congr h) ?_
    refine List.Forall₂.cons (decode_as_dict_congr h) ?_
    exact List.Forall₂.cons rfl List.Forall₂.nil)

theorem decodeF_adequate : ∀ (n : Nat) (t : TypeDesc) (j : Value) (p : Path),
    tdSize t ≤ n → decodeF n t j p = dispatchBody decode t j p := by
  intro n
  induction n using Nat.strong_induction_on with
  | _ n ih =>
    intro t j p hle
    cases n with
    | zero => have := tdSize_pos t; omega
    | succ m =>
      simp only [decodeF]
      apply dispatchBody_congr
      intro t2 h2 j2 p2
      have hm : tdSize t2 ≤ m := by omega
      have e1 : decodeF m t2 j2 p2 = dispatchBody decode t2 j2 p2 :=
        ih m (by omega) t2 j2 p2 hm
      have e2 : decode t2 j2 p2 = dispatchBody decode t2 j2 p2 :=
        ih (tdSize t2) (by omega) t2 j2 p2 le_rfl
      rw [e1, e2]

/-- The dispatcher's fixpoint equation: `decode` behaves as one pass of the
strategy loop whose recursive element decoding is `decode` itself — the fuel
in the wrapper is observationally irrelevant. -/
theorem decode_unfold (t : TypeDesc) (j : Value) (p : Path) :
    decode t j p = dispatchBody decode t j p :=
  decodeF_adequate (tdSize t) t j p le_rfl

/-! ## How a single strategy's result surfaces through the dispatcher -/

theorem decode_eq_own : ∀ (t : TypeDesc) (j : Value) (p : Path),
    decode t j p = absorb p (ownStrategy t t j p) := by
  intro t j p
  rw [decode_unfold]
  cases t with
  | union alts =>
    cases hres : decode_as_union decode (.union alts) j p with
    | error exn =>
      simp [dispatchBody, dispatchLoop, hres, ownStrategy, absorb]
    | ok o =>
      cases o with
      | ok v => simp [dispatchBody, dispatchLoop, hres, ownStrategy, absorb]
      | err de =>
        rcases de with ⟨r⟩
        cases r <;>
          simp [dispatchBody, dispatchLoop, hres, ownStrategy, absorb,
            isUnsupported, decode_as_tuple, decode_as_list, decode_as_primitive,
            supertype_of, decode_as_class, decode_as_dict, decode_as_any]
  | tup args =>
    cases hres : decode_as_tuple decode (.tup args) j p with
    | error exn =>
      simp [dispatchBody, dispatchLoop, hres, ownStrategy, absorb,
        decode_as_union, isUnsupported]
    | ok o =>
      cases o with
      | ok v =>
        simp [dispatchBody, dispatchLoop, hres, ownStrategy, absorb,
          decode_as_union, isUnsupported]
      | err de =>
        rcases de with ⟨r⟩
        cases r <;>
          simp [dispatchBody, dispatchLoop, hres, ownStrategy, absorb,
            isUnsupported, decode_as_union, decode_as_list, decode_as_primitive,
            supertype_of, decode_as_class, decode_as_dict, decode_as_any]
  | list E =>
    cases hres : decode_as_list decode (.list E) j p with
    | error exn =>
      simp [dispatchBody, dispatchLoop, hres, ownStrategy, absorb,
        decode_as_union, decode_as_tuple, isUnsupported]
    | ok o =>
      cases o with
      | ok v =>
        simp [dispatchBody, dispatchLoop, hres, ownStrategy, absorb,
          decode_as_union, decode_as_tuple, isUnsupported]
      | err de =>
        rcases de with ⟨r⟩
        cases r <;>
          simp [dispatchBody, dispatchLoop, hres, ownStrategy, absorb,
            isUnsupported, decode_as_union, decode_as_tuple, decode_as_primitive,
            supertype_of, decode_as_class, decode_as_dict, decode_as_any]
  | dict kd vd =>
    cases hres : decode_as_dict decode (.dict kd vd) j p with
    | error exn =>
      simp [dispatchBody, dispatchLoop, hres, ownStrategy, absorb,
        decode_as_union, decode_as_tuple, decode_as_list, decode_as_primitive,
        supertype_of, decode_as_class, isUnsupported]
    | ok o =>
      cases o with
      | ok v =>
        simp [dispatchBody, dispatchLoop, hres, ownStrategy, absorb,
          decode_as_union, decode_as_tuple, decode_as_list, decode_as_primitive,
          supertype_of, decode_as_class, isUnsupported]
      | err de =>
        rcases de with ⟨r⟩
        cases r <;>
          simp [dispatchBody, dispatchLoop, hres, ownStrategy, absorb,
            isUnsupported, decode_as_union, decode_as_tuple, decode_as_list,
            decode_as_primitive, supertype_of, decode_as_class, decode_as_any]
  | cls nm fields =>
    cases hres : decode_as_class decode (.cls nm fields) j p with
    | error exn =>
      simp [dispatchBody, dispatchLoop, hres, ownStrategy, absorb,
        decode_as_union, decode_as_tuple, decode_as_list, decode_as_primitive,
        supertype_of, isUnsupported]
    | ok o =>
      cases o with
      | ok v =>
        simp [dispatchBody, dispatchLoop, hres, ownStrategy, absorb,
          decode_as_union, decode_as_tuple, decode_as_list, decode_as_primitive,
          supertype_of, isUnsupported]
      | err de =>
        rcases de with ⟨r⟩
        cases r <;>
          simp [dispatchBody, dispatchLoop, hres, ownStrategy, absorb,
            isUnsupported, decode_as_union, decode_as_tuple, decode_as_list,
            decode_as_primitive, supertype_of, decode_as_dict, decode_as_any]
  | any =>
    simp [dispatchBody, dispatchLoop, ownStrategy, absorb,
      decode_as_union, decode_as_tuple, decode_as_list, decode_as_primitive,
      supertype_of, decode_as_class, decode_as_dict, decode_as_any, isUnsupported]
  | typevar nm =>
    simp [dispatchBody, dispatchLoop, ownStrategy, absorb,
      decode_as_union, decode_as_tuple, decode_as_list, decode_as_primitive,
      supertype_of, decode_as_class, decode_as_dict, decode_as_any, isUnsupported]
  | prim q =>
    cases hres : decode_as_primitive (.prim q) j p with
    | error exn =>
      simp [dispatchBody, dispatchLoop, hres, ownStrategy, absorb,
        decode_as_union, decode_as_tuple, decode_as_list, isUnsupported]
    | ok o =>
      cases o with
      | ok v =>
        simp [dispatchBody, dispatchLoop, hres, ownStrategy, absorb,
          decode_as_union, decode_as_tuple, decode_as_list, isUnsupported]
      | err de =>
        rcases de with ⟨r⟩
        cases r <;>
          simp [dispatchBody, dispatchLoop, hres, ownStrategy, absorb,
            isUnsupported, decode_as_union, decode_as_tuple, decode_as_list,
            decode_as_class, decode_as_dict, decode_as_any]
  | float =>
    cases hres : decode_as_primitive .float j p with
    | error exn =>
      simp [dispatchBody, dispatchLoop, hres, ownStrategy, absorb,
        decode_as_union, decode_as_tuple, decode_as_list, isUnsupported]
    | ok o =>
      cases o with
      | ok v =>
        simp [dispatchBody, dispatchLoop, hres, ownStrategy, absorb,
          decode_as_union, decode_as_tuple, decode_as_list, isUnsupported]
      | err de =>
        rcases de with ⟨r⟩
        cases r <;>
          simp [dispatchBody, dispatchLoop, hres, ownStrategy, absorb,
            isUnsupported, decode_as_union, decode_as_tuple, decode_as_list,
            decode_as_class, decode_as_dict, decode_as_any]
  | newtype nm b =>
    cases hres : decode_as_primitive (.newtype nm b) j p with
    | error exn =>
      simp [dispatchBody, dispatchLoop, hres, ownStrategy, absorb,
        decode_as_union, decode_as_tuple, decode_as_list, isUnsupported]
    | ok o =>
      cases o with
      | ok v =>
        simp [dispatchBody, dispatchLoop, hres, ownStrategy, absorb,
          decode_as_union, decode_as_tuple, decode_as_list, isUnsupported]
      | err de =>
        rcases de with ⟨r⟩
        cases r <;>
          simp [dispatchBody, dispatchLoop, hres, ownStrategy, absorb,
            isUnsupported, decode_as_union, decode_as_tuple, decode_as_list,
            decode_as_class, decode_as_dict, decode_as_any]

theorem dispatchLoop_combine {t : TypeDesc} {j : Value} {p : Path} :
    ∀ {ds : List Decoder} {outs : List Outcome} (best : Outcome),
    List.Forall₂ (fun d o => d t j p = .ok o) ds outs →
    dispatchLoop t j p ds best = .ok (combineFrom best outs) := by
  intro ds outs best h
  induction h generalizing best with
  | nil => rfl
  | cons h1 _ ih =>
    rename_i d o ds2 outs2 hf
    simp only [dispatchLoop, h1]
    cases o with
    | ok v => simp [combineFrom]
    | err de => simp only [combineFrom]; exact ih _

/-- C1: for every descriptor, value and path the dispatcher consults the
strategies in the fixed order Sum-Type, Fixed/Variadic Sequence, Homogeneous
Sequence, Primitive/Scalar, Record, Generic Mapping, Wildcard
(`strategyResults`), and — starting from a best result of
`Error(UnsupportedDecoding(path))` — returns a success immediately,
lets a definitive failure overwrite the best result while consultation
continues, and lets an `UnsupportedDecoding` leave it unchanged
(`combineSpec`); if every strategy reports `UnsupportedDecoding` the result
is `Error(UnsupportedDecoding(path))`. -/
theorem claim_C1 (t : TypeDesc) (j : Value) (p : Path)
    (o₁ o₂ o₃ o₄ o₅ o₆ o₇ : Outcome)
    (h : strategyResults t j p =
      [.ok o₁, .ok o₂, .ok o₃, .ok o₄, .ok o₅, .ok o₆, .ok o₇]) :
    decode t j p = .ok (combineSpec p [o₁, o₂, o₃, o₄, o₅, o₆, o₇]) := by
  simp only [strategyResults, List.cons.injEq, and_true] at h
  obtain ⟨h1, h2, h3, h4, h5, h6, h7⟩ := h
  rw [decode_unfold]
  unfold dispatchBody
  exact dispatchLoop_combine _
    (List.Forall₂.cons h1 (List.Forall₂.cons h2 (List.Forall₂.cons h3
      (List.Forall₂.cons h4 (List.Forall₂.cons h5 (List.Forall₂.cons h6
        (List.Forall₂.cons h7 List.Forall₂.nil)))))))

/-- Witness for C1: decoding `True` against the integer descriptor — the
Primitive/Scalar strategy's definitive `TypeMismatch` survives the later
`UnsupportedDecoding` reports and is the dispatcher's result. -/
theorem claim_C1_witness :
    decode (.prim .pint) (.bool true) [] =
      .ok (combineSpec []
        [.err ⟨.unsupportedDecoding []⟩, .err ⟨.unsupportedDecoding []⟩,
         .err ⟨.unsupportedDecoding []⟩, .err ⟨.typeMismatch []⟩,
         .err ⟨.unsupportedDecoding []⟩, .err ⟨.unsupportedDecoding []⟩,
         .err ⟨.unsupportedDecoding []⟩]) :=
  claim_C1 (.prim .pint) (.bool true) [] _ _ _ _ _ _ _ (by rfl)

/-- C2 (code-bug evidence): `decode` is not exception-free — decoding the
integer `5` against the one-element fixed-arity sequence descriptor reaches
`len(json)` in `decode_as_tuple` with an unsized input, and the `TypeError`
escapes the engine instead of being returned as a `DecodingError`. -/
theorem claim_C2 :
    decode (.tup [some (.prim .pint)]) (.int 5) [] =
      .error (.typeError "object has no len") := by rfl

theorem unionLoop_eq_fsel {j : Value} {p : Path} :
    ∀ (rest : List TypeDesc) (t : TypeDesc),
    unionLoop decode j p t rest =
      firstSuccessElseLast ((t :: rest).map (fun b => decode b j p))
  | [], t => by simp [unionLoop, firstSuccessElseLast]
  | t2 :: rest2, t => by
    have ih := @unionLoop_eq_fsel j p rest2 t2
    simp only [List.map_cons] at ih ⊢
    rw [unionLoop]
    show _ = firstSuccessElseLast (decode t j p :: decode t2 j p ::
      List.map (fun b => decode b j p) rest2)
    rw [show ∀ r r2 rs, firstSuccessElseLast (r :: r2 :: rs) =
        (match r with
         | .error exn => (.error exn : Res)
         | .ok (.ok v) => .ok (.ok v)
         | .ok (.err _) => firstSuccessElseLast (r2 :: rs)) from
      fun _ _ _ => rfl]
    cases decode t j p with
    | error exn => rfl
    | ok o =>
      cases o with
      | ok v => rfl
      | err e => exact ih

/-- C3: the Sum-Type strategy reports `UnsupportedDecoding` as soon as any
alternative is an unresolved generic-parameter placeholder; otherwise it
recursively decodes the value against each alternative in declared order at
the unchanged path, returns the first success, and with no success returns
the last alternative's outcome (`firstSuccessElseLast`). -/
theorem claim_C3 :
    (∀ (alts : List TypeDesc) (j : Value) (p : Path) (a : TypeDesc),
      a ∈ alts → is_typevar a = true →
      decode_as_union decode (.union alts) j p = .ok (.err ⟨.unsupportedDecoding p⟩))
    ∧ (∀ (alts : List TypeDesc) (j : Value) (p : Path) (t : TypeDesc)
        (rest : List TypeDesc), alts = t :: rest →
        (∀ b ∈ alts, is_typevar b = false) →
        decode_as_union decode (.union alts) j p =
          firstSuccessElseLast (alts.map (fun b => decode b j p))) := by
  constructor
  · intro alts j p a ha hv
    have hany : alts.any is_typevar = true := List.any_eq_true.mpr ⟨a, ha, hv⟩
    simp [decode_as_union, hany]
  · intro alts j p t rest hne hno
    subst hne
    have hany : (t :: rest).any is_typevar = false := by
      simp only [List.any_eq_false]
      intro b hb
      simp [hno b hb]
    simp only [decode_as_union, hany, Bool.false_eq_true, if_false]
    exact unionLoop_eq_fsel rest t

/-- Witness for C3: alternatives (integer, text) against input `"x"` — the
integer alternative fails, the text alternative succeeds, and the strategy
returns `"x"`. -/
theorem claim_C3_witness :
    decode_as_union decode (.union [.prim .pint, .prim .pstr]) (.str "x") [] =
      .ok (.ok (.str "x")) := by
  rw [claim_C3.2 [.prim .pint, .prim .pstr] (.str "x") [] (.prim .pint)
    [.prim .pstr] rfl (by decide)]
  rfl

/-- C4: for a fixed-arity sequence descriptor, a null input yields
`TypeMismatch` at the current path; an input whose length is below the
required minimum — the descriptor count minus 2 when the list ends in the
variadic marker, else the full count (`required_length`) — yields
`TypeMismatch` at the current path; and the spec's example
`(integer, text, variadic-of-boolean)` accepts `[1, "a"]` (minimum met,
variadic tail empty) while rejecting `[1]`. -/
theorem claim_C4 :
    (∀ (args : List (Option TypeDesc)) (p : Path),
      decode (.tup args) .null p = .ok (.err ⟨.typeMismatch p⟩))
    ∧ (∀ (args : List (Option TypeDesc)) (j : Value) (p : Path) (n : Nat)
        (req : Int), pyLen j = some n → required_length args = .ok req →
        (n : Int) < req →
        decode (.tup args) j p = .ok (.err ⟨.typeMismatch p⟩))
    ∧ decode (.tup [some (.prim .pint), some (.prim .pstr), some (.prim .pbool),
        Option.none]) (.list [.int 1, .str "a"]) [] =
        .ok (.ok (.tuple [.int 1, .str "a"]))
    ∧ decode (.tup [some (.prim .pint), some (.prim .pstr), some (.prim .pbool),
        Option.none]) (.list [.int 1]) [] = .ok (.err ⟨.typeMismatch []⟩) := by
  refine ⟨?_, ?_, by rfl, by rfl⟩
  · intro args p
    rw [decode_eq_own]
    simp [ownStrategy, decode_as_tuple, absorb, isUnsupported]
  · intro args j p n req hn hr hlt
    rw [decode_eq_own]
    have hstrat : decode_as_tuple decode (.tup args) j p =
        .ok (.err ⟨.typeMismatch p⟩) := by
      cases j with
      | str s =>
        simp only [pyLen, Option.some.injEq] at hn
        subst hn
        simp only [decode_as_tuple, pyLen, hr]
        rw [if_pos hlt]
      | list xs =>
        simp only [pyLen, Option.some.injEq] at hn
        subst hn
        simp only [decode_as_tuple, pyLen, hr]
        rw [if_pos hlt]
      | tuple xs =>
        simp only [pyLen, Option.some.injEq] at hn
        subst hn
        simp only [decode_as_tuple, pyLen, hr]
        rw [if_pos hlt]
      | dict kvs =>
        simp only [pyLen, Option.some.injEq] at hn
        subst hn
        simp only [decode_as_tuple, pyLen, hr]
        rw [if_pos hlt]
      | null => simp [pyLen] at hn
      | bool b => simp [pyLen] at hn
      | int m => simp [pyLen] at hn
      | float q => simp [pyLen] at hn
      | date d => simp [pyLen] at hn
      | datetime d => simp [pyLen] at hn
      | record nm fs => simp [pyLen] at hn
    simp [ownStrategy, hstrat, absorb, isUnsupported]

/-- Witness for C4: the input `[1]` has length 1, below the required minimum
2 of `(integer, text, variadic-of-boolean)`, so decoding reports
`TypeMismatch` at the empty path. -/
theorem claim_C4_witness :
    decode (.tup [some (.prim .pint), some (.prim .pstr), some (.prim .pbool),
      Option.none]) (.list [.int 1]) [] = .ok (.err ⟨.typeMismatch []⟩) :=
  claim_C4.2.1 _ _ [] 1 2 rfl rfl (by decide)

theorem classParams_all_ok {kvs : List (Value × Value)} {p : Path}
    (vals : String → Value) :
    ∀ (fields : List (String × TypeDesc × Option Value)),
    (∀ f ∈ fields, hasKeyStr kvs f.1 = true →
      decode f.2.1 (pyGet kvs f.1) (p ++ [f.1]) = .ok (.ok (vals f.1))) →
    classParams decode kvs p (fields.map (fun f => (f.1, f.2.1))) =
      .ok ((presentParams fields kvs vals).map (fun q => (q.1, Outcome.ok q.2)))
  | [], _ => rfl
  | f :: fs, h => by
    have ih := classParams_all_ok vals fs (by
      intro g hg
      exact h g (List.mem_cons_of_mem _ hg))
    simp only [List.map_cons, classParams, presentParams, List.filterMap_cons]
    cases hk : hasKeyStr kvs f.1 with
    | false =>
      simp only [Bool.false_eq_true, if_false]
      simpa [presentParams] using ih
    | true =>
      simp only [if_true]
      rw [h f (List.mem_cons_self _ _) hk]
      simpa [presentParams] using congrArg
        (Except.map (fun rs => (f.1, Outcome.ok (vals f.1)) :: rs)) ih

theorem firstErr_ok_map : ∀ (xs : List (String × Value)),
    firstErr (xs.map (fun q => (q.1, Outcome.ok q.2))) = none
  | [] => rfl
  | _ :: xs => firstErr_ok_map xs

theorem extract_ok_map : ∀ (xs : List (String × Value)),
    (xs.map (fun q => (q.1, Outcome.ok q.2))).filterMap (fun q =>
      match q.2 with | .ok v => some (q.1, v) | .err _ => none) = xs
  | [] => rfl
  | x :: xs => by
    simp only [List.map_cons, List.filterMap_cons]
    rw [extract_ok_map xs]

theorem decode_cls_all_ok (nm : String)
    (fields : List (String × TypeDesc × Option Value))
    (kvs : List (Value × Value)) (p : Path) (vals : String → Value)
    (h : ∀ f ∈ fields, hasKeyStr kvs f.1 = true →
      decode f.2.1 (pyGet kvs f.1) (p ++ [f.1]) = .ok (.ok (vals f.1))) :
    decode (.cls nm fields) (.dict kvs) p =
      .ok (match ctor nm fields (presentParams fields kvs vals) with
           | .ok obj => .ok obj
           | .error e => .err ⟨.initializationError p e⟩) := by
  rw [decode_eq_own]
  simp only [ownStrategy, decode_as_class, classParams_all_ok vals fields h,
    firstErr_ok_map, extract_ok_map]
  cases ctor nm fields (presentParams fields kvs vals) with
  | ok obj => simp [absorb]
  | error e => simp [absorb, isUnsupported]

/-- C5: for a record descriptor and a string-keyed mapping input, the Record
strategy decodes only the hinted fields whose names are keys of the input
(absent fields are omitted from construction — `presentParams`); when every
present field decodes, the result is keyword-style construction of the
record, and a construction failure is returned as `InitializationError` at
the current path carrying the underlying `TypeError`. -/
theorem claim_C5 (nm : String) (fields : List (String × TypeDesc × Option Value))
    (kvs : List (Value × Value)) (p : Path) (vals : String → Value)
    (h : ∀ f ∈ fields, hasKeyStr kvs f.1 = true →
      decode f.2.1 (pyGet kvs f.1) (p ++ [f.1]) = .ok (.ok (vals f.1))) :
    decode (.cls nm fields) (.dict kvs) p =
      .ok (match ctor nm fields (presentParams fields kvs vals) with
           | .ok obj => .ok obj
           | .error e => .err ⟨.initializationError p e⟩) :=
  decode_cls_all_ok nm fields kvs p vals h

/-- Witness for C5: the spec's record example — fields
`{name: text, age: integer}` with input `{"name": "Al"}`: `age` is omitted
from construction, which then fails, surfacing as `InitializationError` at
the empty path. -/
theorem claim_C5_witness :
    decode (.cls "P" [("name", .prim .pstr, Option.none),
        ("age", .prim .pint, Option.none)])
      (.dict [(.str "name", .str "Al")]) [] =
      .ok (.err ⟨.initializationError [] ⟨"missing arguments: age"⟩⟩) := by
  have h := claim_C5 "P"
    [("name", .prim .pstr, Option.none), ("age", .prim .pint, Option.none)]
    [(.str "name", .str "Al")] [] (fun _ => .str "Al") (by
      intro f hf hk
      rcases List.mem_cons.mp hf with rfl | hf2
      · rfl
      · rcases List.mem_cons.mp hf2 with rfl | hf3
        · cases hk
        · cases hf3)
  rw [h]
  rfl

/-- C6: the Generic Mapping strategy processes input entries in iteration
order starting from an empty result; per entry it decodes the value against
the value descriptor at path + str(key), then the key against the key
descriptor at the same path segment, returning the first failure of either
immediately; on success it inserts decodedKey -> decodedValue (given a
hashable decoded key) into the result mapping, and an exhausted input
returns the accumulated mapping. -/
theorem claim_C6 :
    (∀ (K V : TypeDesc) (k v : Value) (rest acc : List (Value × Value))
      (p : Path) (e : DecodingError),
      decode V v (p ++ [pyStr k]) = .ok (.err e) →
      dictLoop decode K V p ((k, v) :: rest) acc = .ok (.err e))
    ∧ (∀ (K V : TypeDesc) (k v dv : Value) (rest acc : List (Value × Value))
        (p : Path) (e : DecodingError),
        decode V v (p ++ [pyStr k]) = .ok (.ok dv) →
        decode K k (p ++ [pyStr k]) = .ok (.err e) →
        dictLoop decode K V p ((k, v) :: rest) acc = .ok (.err e))
    ∧ (∀ (K V : TypeDesc) (k v dv dk : Value) (rest acc : List (Value × Value))
        (p : Path),
        decode V v (p ++ [pyStr k]) = .ok (.ok dv) →
        decode K k (p ++ [pyStr k]) = .ok (.ok dk) →
        hashableV dk = true →
        dictLoop decode K V p ((k, v) :: rest) acc =
          dictLoop decode K V p rest (insertKV acc dk dv))
    ∧ (∀ (K V : TypeDesc) (acc : List (Value × Value)) (p : Path),
        dictLoop decode K V p [] acc = .ok (.ok (.dict acc)))
    ∧ (∀ (K V : TypeDesc) (kvs : List (Value × Value)) (p : Path),
        decode_as_dict decode (.dict K V) (.dict kvs) p =
          dictLoop decode K V p kvs []) := by
  refine ⟨?_, ?_, ?_, fun K V acc p => rfl, fun K V kvs p => rfl⟩
  · intro K V k v rest acc p e hv
    simp [dictLoop, hv]
  · intro K V k v dv rest acc p e hv hk
    simp [dictLoop, hv, hk]
  · intro K V k v dv dk rest acc p hv hk hh
    simp [dictLoop, hv, hk, hh]

/-- Witness for C6: entry `"a" -> 1` against value descriptor `text` — the
value decode fails first, at path `("a",)`, and the loop returns that
failure immediately. -/
theorem claim_C6_witness :
    dictLoop decode (.prim .pstr) (.prim .pstr) [] [(.str "a", .int 1)] [] =
      .ok (.err ⟨.typeMismatch ["a"]⟩) :=
  claim_C6.1 (.prim .pstr) (.prim .pstr) (.str "a") (.int 1) [] [] []
    ⟨.typeMismatch ["a"]⟩ (by rfl)

/-- C7: for every descriptor in the exact built-in scalar set
{text, integer, boolean, null, date, timestamp}, decoding succeeds —
returning the input unchanged — exactly when the input's runtime type
is exactly the target type (no coercion, no subtype acceptance), and
returns `TypeMismatch` at the current path otherwise; in particular `True`
decodes against boolean but fails against integer with `TypeMismatch` at
the empty path. -/
theorem claim_C7 :
    (∀ (q : PrimT) (v : Value) (p : Path),
      decode (.prim q) v p = .ok (.ok v) ↔ v.rt = q.rt)
    ∧ (∀ (q : PrimT) (v : Value) (p : Path), v.rt ≠ q.rt →
        decode (.prim q) v p = .ok (.err ⟨.typeMismatch p⟩))
    ∧ decode (.prim .pbool) (.bool true) [] = .ok (.ok (.bool true))
    ∧ decode (.prim .pint) (.bool true) [] = .ok (.err ⟨.typeMismatch []⟩) := by
  have hstrat : ∀ (q : PrimT) (v : Value) (p : Path),
      decode (.prim q) v p =
        .ok (if v.rt = q.rt then .ok v else .err ⟨.typeMismatch p⟩) := by
    intro q v p
    rw [decode_eq_own]
    simp only [ownStrategy, decode_as_primitive, supertype_of]
    split
    · simp [absorb]
    · simp [absorb, isUnsupported]
  refine ⟨?_, ?_, by rfl, by rfl⟩
  · intro q v p
    rw [hstrat]
    constructor
    · intro h
      by_contra hne
      rw [if_neg hne] at h
      injection h with h
      cases h
    · intro h
      rw [if_pos h]
  · intro q v p h
    rw [hstrat, if_neg h]

/-- Witness for C7: `True` against the integer descriptor — `bool` is not
`int` under the exact `type(json) is type_` check, so the result is
`TypeMismatch` at the empty path. -/
theorem claim_C7_witness :
    decode (.prim .pint) (.bool true) [] = .ok (.err ⟨.typeMismatch []⟩) :=
  claim_C7.2.1 .pint (.bool true) [] (by decide)

/-- C8: two failure reasons compare equal exactly when they are of the same
kind with the same path — and, for two `InitializationError`s, the same
underlying construction failure; reasons of different kinds are never equal,
and two `DecodingError`s are equal exactly when their wrapped reasons are. -/
theorem claim_C8 :
    (∀ a b : FailureReason, reasonEq a b = true ↔ a = b)
    ∧ (∀ e1 e2 : DecodingError, decodingErrorEq e1 e2 = true ↔ e1 = e2) := by
  have h1 : ∀ a b : FailureReason, reasonEq a b = true ↔ a = b := by
    intro a b
    cases a <;> cases b <;> simp [reasonEq] <;> tauto
  refine ⟨h1, ?_⟩
  intro e1 e2
  rcases e1 with ⟨r1⟩
  rcases e2 with ⟨r2⟩
  simpa [decodingErrorEq] using h1 r1 r2

/-! ## Success extraction through the dispatcher -/

theorem absorb_ok {p : Path} {r : Res} {v : Value} :
    absorb p r = .ok (.ok v) ↔ r = .ok (.ok v) := by
  cases r with
  | error exn => simp [absorb]
  | ok o =>
    cases o with
    | ok w => simp [absorb]
    | err de => simp [absorb]

theorem zip_args_map_some : ∀ (tds : List TypeDesc) (js : List Value)
    (last : Option TypeDesc),
    zip_args (tds.map some) last js = .ok (tds.zip js)
  | [], js, last => by cases js <;> rfl
  | t :: rest, [], last => rfl
  | t :: rest, e :: es, last => by
    rw [List.map_cons, zip_args, zip_args_map_some rest es (some t)]
    rfl

theorem getLast_map_some : ∀ (tds : List TypeDesc) (x : Option TypeDesc),
    (tds.map some).getLast? = some x → ∃ y, x = some y
  | [], x, h => by cases h
  | [t], x, h => by
    injection h with h
    exact ⟨t, h.symm⟩
  | t :: t2 :: rest, x, h => by
    rw [List.map_cons, List.map_cons, List.getLast?_cons_cons] at h
    exact getLast_map_some (t2 :: rest) x (by rwa [List.map_cons])

theorem required_length_map_some {tds : List TypeDesc} {req : Int}
    (h : required_length (tds.map some) = .ok req) : req = (tds.length : Int) := by
  unfold required_length at h
  cases hg : (tds.map some).getLast? with
  | none => rw [hg] at h; cases h
  | some x =>
    rcases getLast_map_some tds x hg with ⟨y, rfl⟩
    rw [hg] at h
    injection h with h
    rw [List.length_map] at h
    omega

theorem zip_take_self : ∀ (tds : List TypeDesc) (js : List Value),
    tds.zip (js.take tds.length) = tds.zip js
  | [], _ => rfl
  | t :: rest, [] => rfl
  | t :: rest, e :: es => by
    simp only [List.length_cons, List.take_succ_cons, List.zip_cons_cons]
    rw [zip_take_self rest es]

theorem tupleLoop_ok_len {p : Path} : ∀ (pairs : List (TypeDesc × Value))
    (idx : Nat) (acc : List Value) (r : Value),
    tupleLoop decode p pairs idx acc = .ok (.ok r) →
    ∃ vs, r = .tuple vs ∧ vs.length = acc.length + pairs.length
  | [], idx, acc, r => by
    intro h
    injection h with h
    injection h with h
    exact ⟨acc, h.symm, by simp⟩
  | (t, e) :: rest, idx, acc, r => by
    intro h
    rw [tupleLoop] at h
    cases hd : decode t e (p ++ [toString idx]) with
    | error exn => rw [hd] at h; cases h
    | ok o =>
      rw [hd] at h
      cases o with
      | err de => cases h
      | ok v =>
        rcases tupleLoop_ok_len rest (idx + 1) (acc ++ [v]) r h with ⟨vs, rfl, hlen⟩
        exact ⟨vs, rfl, by simp at hlen; simp [hlen]; omega⟩

/-- C10: a fixed-arity sequence descriptor without a variadic marker does not
fail on longer inputs: the positional decode zips descriptors with input
elements and stops at the shorter list, so the extra trailing elements are
silently ignored — decoding a longer input equals decoding its truncation to
the descriptor count, a successful result has exactly as many elements as
the descriptor list, and `[1, 2, 3]` against the one-element integer tuple
descriptor yields `(1,)`. -/
theorem claim_C10 :
    (∀ (tds : List TypeDesc) (js : List Value) (p : Path),
      tds.length ≤ js.length →
      decode (.tup (tds.map some)) (.list js) p =
        decode (.tup (tds.map some)) (.list (js.take tds.length)) p)
    ∧ (∀ (tds : List TypeDesc) (js : List Value) (p : Path) (vs : List Value),
        tds.length ≤ js.length →
        decode (.tup (tds.map some)) (.list js) p = .ok (.ok (.tuple vs)) →
        vs.length = tds.length)
    ∧ decode (.tup [some (.prim .pint)]) (.list [.int 1, .int 2, .int 3]) [] =
        .ok (.ok (.tuple [.int 1])) := by
  have hstratE : ∀ (tds : List TypeDesc) (js : List Value) (p : Path)
      (exn : PyExn), required_length (tds.map some) = .error exn →
      decode_as_tuple decode (.tup (tds.map some)) (.list js) p = .error exn := by
    intro tds js p exn hr
    simp only [decode_as_tuple, pyLen, hr]
  have hstrat : ∀ (tds : List TypeDesc) (js : List Value) (p : Path)
      (req : Int), required_length (tds.map some) = .ok req →
      decode_as_tuple decode (.tup (tds.map some)) (.list js) p =
        (if ((js.length : Int) < req) then .ok (.err ⟨.typeMismatch p⟩)
         else tupleLoop decode p (tds.zip js) 0 []) := by
    intro tds js p req hr
    simp only [decode_as_tuple, pyLen, iterElems, Option.getD, hr,
      zip_args_map_some]
  refine ⟨?_, ?_, by rfl⟩
  · intro tds js p hlen
    rw [decode_eq_own, decode_eq_own]
    simp only [ownStrategy]
    cases hr : required_length (tds.map some) with
    | error exn =>
      rw [hstratE _ _ _ _ hr, hstratE _ _ _ _ hr]
    | ok req =>
      have hreq := required_length_map_some hr
      subst hreq
      rw [hstrat _ _ _ _ hr, hstrat _ _ _ _ hr]
      rw [if_neg (by omega), if_neg (by
        rw [List.length_take]
        omega)]
      rw [zip_take_self]
  · intro tds js p vs hlen hdec
    rw [decode_eq_own] at hdec
    simp only [ownStrategy] at hdec
    rw [absorb_ok] at hdec
    cases hr : required_length (tds.map some) with
    | error exn => rw [hstratE _ _ _ _ hr] at hdec; cases hdec
    | ok req =>
      rw [hstrat _ _ _ _ hr] at hdec
      have hreq := required_length_map_some hr
      subst hreq
      rw [if_neg (by omega)] at hdec
      rcases tupleLoop_ok_len (tds.zip js) 0 [] (.tuple vs) hdec with ⟨ws, hw, hl⟩
      injection hw with hw
      subst hw
      rw [List.length_zip, Nat.min_eq_left hlen] at hl
      simpa using hl

/-- Witness for C10: input `[1, 2, 3]` against the one-element integer tuple
descriptor succeeds, and the result has exactly one element. -/
theorem claim_C10_witness :
    decode (.tup [some (.prim .pint)]) (.list [.int 1, .int 2, .int 3]) [] =
      decode (.tup [some (.prim .pint)]) (.list [.int 1]) [] :=
  claim_C10.1 [.prim .pint] [.int 1, .int 2, .int 3] [] (by decide)

/-- Counterexample to C9 as stated: the record class `F` declares field
`x : int` with the (legal) default value `"oops"`.  Decoding the empty
mapping against it succeeds — the absent field is filled by the default —
but re-decoding the result's generic-tree representation fails with
`TypeMismatch` at `("x",)`, because the materialised default does not
conform to the field's descriptor. -/
theorem claim_C9_counterexample :
    decode (.cls "F" [("x", .prim .pint, some (.str "oops"))]) (.dict []) [] =
      .ok (.ok (.record "F" [(.str "x", .str "oops")]))
    ∧ treeVal (.dict []) = true
    ∧ decode (.cls "F" [("x", .prim .pint, some (.str "oops"))])
        (toTree (.record "F" [(.str "x", .str "oops")])) [] =
      .ok (.err ⟨.typeMismatch ["x"]⟩) :=
  ⟨rfl, rfl, rfl⟩

/-! ## Generic-tree facts for the idempotence analysis -/

mutual

theorem toTree_tree : ∀ (v : Value), treeVal v = true → toTree v = v
  | .null, _ => rfl
  | .bool _, _ => rfl
  | .int _, _ => rfl
  | .float _, _ => rfl
  | .str _, _ => rfl
  | .date _, h => by simp [treeVal] at h
  | .datetime _, h => by simp [treeVal] at h
  | .tuple _, h => by simp [treeVal] at h
  | .record _ _, h => by simp [treeVal] at h
  | .list xs, h => by
    rw [toTree, toTreeL_tree xs (by simpa [treeVal] using h)]
  | .dict kvs, h => by
    rw [toTree, toTreeP_tree kvs (by simpa [treeVal] using h)]

theorem toTreeL_tree : ∀ (xs : List Value), treeValL xs = true → toTreeL xs = xs
  | [], _ => rfl
  | x :: xs, h => by
    rw [treeValL, Bool.and_eq_true] at h
    rw [toTreeL, toTree_tree x h.1, toTreeL_tree xs h.2]

theorem toTreeP_tree : ∀ (kvs : List (Value × Value)), treeValP kvs = true →
    toTreeP kvs = kvs
  | [], _ => rfl
  | (k, v) :: rest, h => by
    cases k with
    | str s =>
      simp only [treeValP, Bool.and_eq_true] at h
      obtain ⟨⟨hk, hv⟩, hrest⟩ := h
      rw [toTreeP, toTree_tree v hv, toTreeP_tree rest hrest]
      rfl
    | null => rw [treeValP] at h; simp [keyOkP] at h
    | bool b => rw [treeValP] at h; simp [keyOkP] at h
    | int n => rw [treeValP] at h; simp [keyOkP] at h
    | float q => rw [treeValP] at h; simp [keyOkP] at h
    | date d => rw [treeValP] at h; simp [keyOkP] at h
    | datetime d => rw [treeValP] at h; simp [keyOkP] at h
    | list xs => rw [treeValP] at h; simp [keyOkP] at h
    | tuple xs => rw [treeValP] at h; simp [keyOkP] at h
    | dict kvs2 => rw [treeValP] at h; simp [keyOkP] at h
    | record nm fs => rw [treeValP] at h; simp [keyOkP] at h

end

theorem toTreeL_eq_map : ∀ (xs : List Value), toTreeL xs = xs.map toTree
  | [] => rfl
  | x :: xs => by rw [toTreeL, toTreeL_eq_map xs, List.map_cons]

theorem treeValL_mem : ∀ {xs : List Value}, treeValL xs = true →
    ∀ x ∈ xs, treeVal x = true := by
  intro xs
  induction xs with
  | nil => intro _ x hx; cases hx
  | cons y ys ih =>
    intro h x hx
    rw [treeValL, Bool.and_eq_true] at h
    rcases List.mem_cons.mp hx with rfl | hx2
    · exact h.1
    · exact ih h.2 x hx2

theorem treeValL_map_of {α : Type} {f : α → Value} (hf : ∀ x, treeVal (f x) = true) :
    ∀ (xs : List α), treeValL (xs.map f) = true
  | [] => rfl
  | x :: xs => by
    rw [List.map_cons, treeValL, Bool.and_eq_true]
    exact ⟨hf x, treeValL_map_of hf xs⟩

theorem treeValP_keys : ∀ {kvs : List (Value × Value)}, treeValP kvs = true →
    treeValL (kvs.map Prod.fst) = true := by
  intro kvs
  induction kvs with
  | nil => intro _; rfl
  | cons kv rest ih =>
    rcases kv with ⟨k, v⟩
    intro h
    cases k with
    | str s =>
      simp only [treeValP, Bool.and_eq_true] at h
      obtain ⟨⟨hk, -⟩, hrest⟩ := h
      rw [List.map_cons, treeValL, Bool.and_eq_true]
      exact ⟨rfl, ih hrest⟩
    | null => rw [treeValP] at h; simp [keyOkP] at h
    | bool b => rw [treeValP] at h; simp [keyOkP] at h
    | int n => rw [treeValP] at h; simp [keyOkP] at h
    | float q => rw [treeValP] at h; simp [keyOkP] at h
    | date d => rw [treeValP] at h; simp [keyOkP] at h
    | datetime d => rw [treeValP] at h; simp [keyOkP] at h
    | list xs => rw [treeValP] at h; simp [keyOkP] at h
    | tuple xs => rw [treeValP] at h; simp [keyOkP] at h
    | dict kvs2 => rw [treeValP] at h; simp [keyOkP] at h
    | record nm fs => rw [treeValP] at h; simp [keyOkP] at h

theorem treeVal_char_strs (s : String) :
    treeValL (s.data.map (fun c => Value.str (String.mk [c]))) = true :=
  @treeValL_map_of Char (fun c => Value.str (String.mk [c])) (fun _ => rfl) s.data

theorem iterElems_tree {j : Value} {elts : List Value} (hj : treeVal j = true)
    (hi : iterElems j = some elts) : treeValL elts = true := by
  cases j with
  | str s =>
    injection hi with hi
    subst hi
    exact treeVal_char_strs s
  | list xs =>
    injection hi with hi
    subst hi
    rwa [treeVal] at hj
  | dict kvs =>
    injection hi with hi
    subst hi
    rw [treeVal] at hj
    exact treeValP_keys hj
  | tuple xs => simp [treeVal] at hj
  | null => cases hi
  | bool b => cases hi
  | int n => cases hi
  | float q => cases hi
  | date d => cases hi
  | datetime d => cases hi
  | record nm fs => cases hi

theorem iterElems_len {j : Value} {elts : List Value}
    (hi : iterElems j = some elts) : pyLen j = some elts.length := by
  cases j with
  | str s =>
    injection hi with hi
    subst hi
    rw [pyLen, List.length_map]
    rfl
  | list xs => injection hi with hi; subst hi; rfl
  | tuple xs => injection hi with hi; subst hi; rfl
  | dict kvs =>
    injection hi with hi
    subst hi
    simp [pyLen]
  | null => cases hi
  | bool b => cases hi
  | int n => cases hi
  | float q => cases hi
  | date d => cases hi
  | datetime d => cases hi
  | record nm fs => cases hi

theorem treeValP_parts {k v : Value} {rest : List (Value × Value)}
    (h : treeValP ((k, v) :: rest) = true) :
    (∃ s, k = .str s ∧ hasKeyStr rest s = false) ∧ treeVal v = true ∧
      treeValP rest = true := by
  simp only [treeValP, Bool.and_eq_true] at h
  obtain ⟨⟨hk, hv⟩, hrest⟩ := h
  refine ⟨?_, hv, hrest⟩
  cases k with
  | str s =>
    refine ⟨s, rfl, ?_⟩
    simp only [keyOkP, Bool.not_eq_true'] at hk
    exact hk
  | null => cases hk
  | bool b => cases hk
  | int n => cases hk
  | float q => cases hk
  | date d => cases hk
  | datetime d => cases hk
  | list xs => cases hk
  | tuple xs => cases hk
  | dict kvs2 => cases hk
  | record nm fs => cases hk

theorem pyGet_tree : ∀ {kvs : List (Value × Value)} {n : String},
    treeValP kvs = true → hasKeyStr kvs n = true → treeVal (pyGet kvs n) = true := by
  intro kvs
  induction kvs with
  | nil => intro n _ hk; cases hk
  | cons kv rest ih =>
    rcases kv with ⟨k, v⟩
    intro n ht hk
    obtain ⟨⟨s, rfl, -⟩, hv, hrest⟩ := treeValP_parts ht
    simp only [pyGet, List.find?]
    cases hb : vbeq (Value.str s) (Value.str n) with
    | true => simpa using hv
    | false =>
      rw [hasKeyStr, List.any_cons, Bool.or_eq_true] at hk
      rcases hk with hk | hk
      · rw [hb] at hk; cases hk
      · have := ih hrest hk
        simpa [pyGet] using this

/-! ## Success traces of the container loops -/

theorem listLoop_ok {E : TypeDesc} {p : Path} :
    ∀ (elts : List Value) (idx : Nat) (acc : List Value) (r : Value),
    listLoop decode E p elts idx acc = .ok (.ok r) →
    ∃ vs, LoopOk E p idx elts vs ∧ r = .list (acc ++ vs)
  | [], idx, acc, r => by
    intro h
    injection h with h
    injection h with h
    exact ⟨[], LoopOk.nil idx, by simp [h.symm]⟩
  | e :: rest, idx, acc, r => by
    intro h
    rw [listLoop] at h
    cases hd : decode E e (p ++ [toString idx]) with
    | error exn => rw [hd] at h; cases h
    | ok o =>
      rw [hd] at h
      cases o with
      | err de => cases h
      | ok v =>
        rcases listLoop_ok rest (idx + 1) (acc ++ [v]) r h with ⟨vs, hlo, rfl⟩
        exact ⟨v :: vs, LoopOk.cons hd hlo, by simp⟩

theorem listLoop_of_ok {E : TypeDesc} {p : Path} :
    ∀ {idx : Nat} {elts vs : List Value}, LoopOk E p idx elts vs →
    ∀ (acc : List Value),
    listLoop decode E p elts idx acc = .ok (.ok (.list (acc ++ vs))) := by
  intro idx elts vs h
  induction h with
  | nil idx => intro acc; simp [listLoop]
  | cons hd _ ih =>
    intro acc
    rw [listLoop]
    rename_i idx e v elts2 vs2 _
    rw [hd]
    simpa using ih (acc ++ [v])

theorem tupleLoop_ok {p : Path} :
    ∀ (pairs : List (TypeDesc × Value)) (idx : Nat) (acc : List Value) (r : Value),
    tupleLoop decode p pairs idx acc = .ok (.ok r) →
    ∃ vs, TLoopOk p idx pairs vs ∧ r = .tuple (acc ++ vs)
  | [], idx, acc, r => by
    intro h
    injection h with h
    injection h with h
    exact ⟨[], TLoopOk.nil idx, by simp [h.symm]⟩
  | (t, e) :: rest, idx, acc, r => by
    intro h
    rw [tupleLoop] at h
    cases hd : decode t e (p ++ [toString idx]) with
    | error exn => rw [hd] at h; cases h
    | ok o =>
      rw [hd] at h
      cases o with
      | err de => cases h
      | ok v =>
        rcases tupleLoop_ok rest (idx + 1) (acc ++ [v]) r h with ⟨vs, hlo, rfl⟩
        exact ⟨v :: vs, TLoopOk.cons hd hlo, by simp⟩

theorem tupleLoop_of_ok {p : Path} :
    ∀ {idx : Nat} {pairs : List (TypeDesc × Value)} {vs : List Value},
    TLoopOk p idx pairs vs → ∀ (acc : List Value),
    tupleLoop decode p pairs idx acc = .ok (.ok (.tuple (acc ++ vs))) := by
  intro idx pairs vs h
  induction h with
  | nil idx => intro acc; simp [tupleLoop]
  | cons hd _ ih =>
    intro acc
    rw [tupleLoop]
    rename_i idx t e v rest2 vs2 _
    rw [hd]
    simpa using ih (acc ++ [v])

theorem TLoopOk_len {p : Path} : ∀ {idx : Nat} {pairs : List (TypeDesc × Value)}
    {vs : List Value}, TLoopOk p idx pairs vs → pairs.length = vs.length := by
  intro idx pairs vs h
  induction h with
  | nil idx => rfl
  | cons _ _ ih => simpa using ih

theorem dictLoop_ok {K V : TypeDesc} {p : Path} :
    ∀ (kvs acc : List (Value × Value)) (r : Value),
    dictLoop decode K V p kvs acc = .ok (.ok r) →
    ∃ out, DLoopOk K V p kvs out ∧
      r = .dict (out.foldl (fun a kv => insertKV a kv.1 kv.2) acc)
  | [], acc, r => by
    intro h
    injection h with h
    injection h with h
    exact ⟨[], DLoopOk.nil, by simp [h.symm]⟩
  | (k, v) :: rest, acc, r => by
    intro h
    cases hv : decode V v (p ++ [pyStr k]) with
    | error exn => simp [dictLoop, hv] at h
    | ok o =>
      cases o with
      | err de => simp [dictLoop, hv] at h
      | ok dv =>
        cases hk : decode K k (p ++ [pyStr k]) with
        | error exn => simp [dictLoop, hv, hk] at h
        | ok o2 =>
          cases o2 with
          | err de => simp [dictLoop, hv, hk] at h
          | ok dk =>
            cases hh : hashableV dk with
            | false => simp [dictLoop, hv, hk, hh] at h
            | true =>
              simp only [dictLoop, hv, hk, hh, if_true] at h
              rcases dictLoop_ok rest (insertKV acc dk dv) r h with ⟨out, hlo, rfl⟩
              exact ⟨(dk, dv) :: out, DLoopOk.cons hv hk hh hlo, by simp⟩

theorem dictLoop_of_ok {K V : TypeDesc} {p : Path} :
    ∀ {kvs out : List (Value × Value)}, DLoopOk K V p kvs out →
    ∀ (acc : List (Value × Value)),
    dictLoop decode K V p kvs acc =
      .ok (.ok (.dict (out.foldl (fun a kv => insertKV a kv.1 kv.2) acc))) := by
  intro kvs out h
  induction h with
  | nil => intro acc; simp [dictLoop]
  | cons hv hk hh _ ih =>
    intro acc
    simp only [dictLoop, hv, hk, hh, if_true]
    simpa using ih _

theorem classParams_extract {kvs : List (Value × Value)} {p : Path} :
    ∀ (hints : List (String × TypeDesc)) (params : List (String × Outcome)),
    classParams decode kvs p hints = .ok params → firstErr params = none →
    ∃ out : List (String × Value),
      params = out.map (fun q => (q.1, Outcome.ok q.2)) ∧ CParamsOk kvs p hints out
  | [], params => by
    intro h hf
    injection h with h
    exact ⟨[], by simp [h.symm], CParamsOk.nil⟩
  | (n, d) :: rest, params => by
    intro h hf
    cases hp : hasKeyStr kvs n with
    | false =>
      simp only [classParams, hp, Bool.false_eq_true, if_false] at h
      rcases classParams_extract rest params h hf with ⟨out, rfl, hcp⟩
      exact ⟨out, rfl, CParamsOk.consAbsent hp hcp⟩
    | true =>
      simp only [classParams, hp, if_true] at h
      cases hd : decode d (pyGet kvs n) (p ++ [n]) with
      | error exn => rw [hd] at h; simp [Except.map] at h
      | ok o =>
        rw [hd] at h
        cases hrec : classParams decode kvs p rest with
        | error exn => rw [hrec] at h; simp [Except.map] at h
        | ok rs =>
          rw [hrec] at h
          simp only [Except.map] at h
          injection h with h
          subst h
          cases o with
          | err e => cases hf
          | ok v =>
            rw [firstErr] at hf
            rcases classParams_extract rest rs hrec hf with ⟨out, rfl, hcp⟩
            exact ⟨(n, v) :: out, by simp, CParamsOk.consPresent hp hd hcp⟩

theorem classParams_of_ok {kvs : List (Value × Value)} {p : Path} :
    ∀ {hints : List (String × TypeDesc)} {out : List (String × Value)},
    CParamsOk kvs p hints out →
    classParams decode kvs p hints = .ok (out.map (fun q => (q.1, Outcome.ok q.2))) := by
  intro hints out h
  induction h with
  | nil => rfl
  | consPresent hp hd _ ih =>
    simp only [classParams, hp, if_true, hd, ih, Except.map, List.map_cons]
  | consAbsent hp _ ih =>
    simp only [classParams, hp, Bool.false_eq_true, if_false, ih]

theorem ctor_all_provided {nm : String}
    {fields : List (String × TypeDesc × Option Value)}
    {params : List (String × Value)}
    (h : ∀ f ∈ fields, f.2.2 = Option.none →
      params.any (fun q => q.1 = f.1) = true) :
    ctor nm fields params = .ok (.record nm (ctorFields fields params)) := by
  unfold ctor
  have hfil : fields.filter
      (fun f => !(params.any (fun q => q.1 = f.1)) && f.2.2.isNone) = [] := by
    rw [List.filter_eq_nil]
    intro f hf
    intro hcontra
    rw [Bool.and_eq_true, Bool.not_eq_true'] at hcontra
    obtain ⟨hany, hnone⟩ := hcontra
    rw [Option.isNone_iff_eq_none] at hnone
    rw [h f hf hnone] at hany
    cases hany
  rw [hfil]
  rfl

theorem ctor_ok_shape {nm : String} {fields : List (String × TypeDesc × Option Value)}
    {params : List (String × Value)} {v : Value}
    (h : ctor nm fields params = .ok v) :
    v = .record nm (ctorFields fields params) := by
  unfold ctor at h
  simp only [] at h
  split at h
  · injection h with h
    exact h.symm
  · cases h

theorem insertKV_fresh : ∀ (acc : List (Value × Value)) (k v : Value),
    (∀ kv ∈ acc, vbeq kv.1 k = false) → insertKV acc k v = acc ++ [(k, v)]
  | [], k, v, _ => rfl
  | (k0, v0) :: rest, k, v, h => by
    rw [insertKV]
    rw [h (k0, v0) (List.mem_cons_self _ _)]
    simp only [Bool.false_eq_true, if_false, List.cons_append, List.cons.injEq,
      true_and]
    exact insertKV_fresh rest k v (fun kv hk => h kv (List.mem_cons_of_mem _ hk))

theorem foldl_insert_fresh : ∀ (out acc : List (Value × Value)),
    (∀ kv ∈ out, ∀ kv2 ∈ acc, vbeq kv2.1 kv.1 = false) →
    List.Pairwise (fun a b => vbeq a.1 b.1 = false) out →
    out.foldl (fun a kv => insertKV a kv.1 kv.2) acc = acc ++ out
  | [], acc, _, _ => by simp
  | (k, v) :: rest, acc, hfresh, hpw => by
    rw [List.foldl_cons]
    rw [List.pairwise_cons] at hpw
    rw [insertKV_fresh acc k v
      (fun kv2 hk2 => hfresh (k, v) (List.mem_cons_self _ _) kv2 hk2)]
    rw [foldl_insert_fresh rest (acc ++ [(k, v)]) (by
      intro kv hkv kv2 hkv2
      rcases List.mem_append.mp hkv2 with h2 | h2
      · exact hfresh kv (List.mem_cons_of_mem _ hkv) kv2 h2
      · rcases List.mem_singleton.mp h2 with rfl
        exact hpw.1 kv hkv) hpw.2]
    simp

theorem treeValP_mem_key : ∀ {kvs : List (Value × Value)}, treeValP kvs = true →
    ∀ kv ∈ kvs, ∃ s, kv.1 = Value.str s := by
  intro kvs
  induction kvs with
  | nil => intro _ kv hkv; cases hkv
  | cons hd rest ih =>
    rcases hd with ⟨k, v⟩
    intro h kv hkv
    obtain ⟨⟨s, rfl, -⟩, -, hrest⟩ := treeValP_parts h
    rcases List.mem_cons.mp hkv with rfl | hkv2
    · exact ⟨s, rfl⟩
    · exact ih hrest kv hkv2

theorem hasKeyStr_false_mem {kvs : List (Value × Value)} {s : String}
    (h : hasKeyStr kvs s = false) :
    ∀ kv ∈ kvs, vbeq kv.1 (.str s) = false := by
  intro kv hkv
  rw [hasKeyStr, List.any_eq_false] at h
  have := h kv hkv
  simpa using this

theorem vbeq_str_false_comm {s t : String}
    (h : vbeq (.str t) (.str s) = false) : vbeq (.str s) (.str t) = false := by
  have h2 : (t == s) = false := h
  show (s == t) = false
  rw [beq_eq_false_iff_ne] at h2 ⊢
  exact fun e => h2 e.symm

theorem treeValP_pairwise : ∀ {kvs : List (Value × Value)},
    treeValP kvs = true →
    List.Pairwise (fun a b : Value × Value => vbeq a.1 b.1 = false) kvs := by
  intro kvs
  induction kvs with
  | nil => intro _; exact List.Pairwise.nil
  | cons hd rest ih =>
    rcases hd with ⟨k, v⟩
    intro h
    obtain ⟨⟨s, rfl, hnk⟩, -, hrest⟩ := treeValP_parts h
    refine List.Pairwise.cons ?_ (ih hrest)
    intro b hb
    rcases treeValP_mem_key hrest b hb with ⟨t, ht⟩
    rw [ht]
    exact vbeq_str_false_comm (by
      have := hasKeyStr_false_mem hnk b hb
      rwa [ht] at this)

theorem DLoop_keys {K V : TypeDesc} {p : Path}
    (hkid : ∀ s pp r, decode K (.str s) pp = .ok (.ok r) → r = .str s) :
    ∀ {kvs out : List (Value × Value)}, DLoopOk K V p kvs out →
    treeValP kvs = true → out.map Prod.fst = kvs.map Prod.fst := by
  intro kvs out h
  induction h with
  | nil => intro _; rfl
  | cons hv hk _ _ ih =>
    intro htree
    obtain ⟨⟨s, rfl, -⟩, -, hrest⟩ := treeValP_parts htree
    have hdk := hkid s _ _ hk
    subst hdk
    simp only [List.map_cons]
    rw [ih hrest]

theorem DLoop_redecode {K V : TypeDesc} {p : Path}
    (hkid : ∀ s pp r, decode K (.str s) pp = .ok (.ok r) → r = .str s)
    (hV : IdemAt V) :
    ∀ {kvs out : List (Value × Value)}, DLoopOk K V p kvs out →
    treeValP kvs = true → DLoopOk K V p (toTreeP out) out := by
  intro kvs out h
  induction h with
  | nil => intro _; exact DLoopOk.nil
  | cons hv hk hh _ ih =>
    intro htree
    obtain ⟨⟨s, rfl, -⟩, hvt, hrest⟩ := treeValP_parts htree
    have hdk := hkid s _ _ hk
    subst hdk
    rw [toTreeP]
    exact DLoopOk.cons (hV _ _ _ hvt hv) hk hh (ih hrest)

theorem Good_not_typevar {t : TypeDesc} (h : Good t) : is_typevar t = false := by
  cases h <;> rfl

theorem LoopOk_redecode {E : TypeDesc} {p : Path} (hE : IdemAt E) :
    ∀ {idx : Nat} {elts vs : List Value}, LoopOk E p idx elts vs →
    treeValL elts = true → LoopOk E p idx (vs.map toTree) vs := by
  intro idx elts vs h
  induction h with
  | nil idx => intro _; exact LoopOk.nil idx
  | cons hd _ ih =>
    intro ht
    rw [treeValL, Bool.and_eq_true] at ht
    exact LoopOk.cons (hE _ _ _ ht.1 hd) (ih ht.2)

theorem TLoopOk_redecode {p : Path} :
    ∀ {idx : Nat} {pairs : List (TypeDesc × Value)} {vs : List Value},
    TLoopOk p idx pairs vs →
    (∀ pr ∈ pairs, IdemAt pr.1 ∧ treeVal pr.2 = true) →
    TLoopOk p idx ((pairs.map Prod.fst).zip (vs.map toTree)) vs := by
  intro idx pairs vs h
  induction h with
  | nil idx => intro _; exact TLoopOk.nil idx
  | cons hd _ ih =>
    intro hall
    rename_i idx t e v rest vs2 _
    have hh := hall (t, e) (List.mem_cons_self _ _)
    exact TLoopOk.cons (hh.1 _ _ _ hh.2 hd)
      (ih (fun pr hpr => hall pr (List.mem_cons_of_mem _ hpr)))

theorem decode_as_tuple_iter {args : List (Option TypeDesc)} {j : Value}
    {p : Path} {elts : List Value} (hnn : j ≠ .null)
    (hi : iterElems j = some elts) :
    decode_as_tuple decode (.tup args) j p =
      (match required_length args with
       | .error exn => (.error exn : Res)
       | .ok req =>
         if ((elts.length : Int) < req) then .ok (.err ⟨.typeMismatch p⟩)
         else
           match zip_args args Option.none elts with
           | .error exn => .error exn
           | .ok pairs => tupleLoop decode p pairs 0 []) := by
  have hlen := iterElems_len hi
  cases j with
  | null => exact absurd rfl hnn
  | str s => simp only [decode_as_tuple, hlen, hi, Option.getD_some]
  | list xs => simp only [decode_as_tuple, hlen, hi, Option.getD_some]
  | tuple xs => simp only [decode_as_tuple, hlen, hi, Option.getD_some]
  | dict kvs => simp only [decode_as_tuple, hlen, hi, Option.getD_some]
  | bool b => cases hi
  | int n => cases hi
  | float q => cases hi
  | date d => cases hi
  | datetime d => cases hi
  | record nm fs => cases hi

theorem zip_args_stick {t : TypeDesc} : ∀ (es : List Value),
    zip_args [Option.none] (some t) es = .ok (zipExtend [t] es)
  | [] => rfl
  | e :: es => by
    simp only [zip_args, zip_args_stick es]
    rfl

theorem zip_args_var : ∀ (tds : List TypeDesc) (last : Option TypeDesc)
    (elts : List Value), tds ≠ [] →
    zip_args (tds.map some ++ [Option.none]) last elts = .ok (zipExtend tds elts)
  | [], _, _, h => absurd rfl h
  | [t], _, [], _ => rfl
  | [t], last, e :: es, _ => by
    simp only [List.map_cons, List.map_nil, List.cons_append, List.nil_append]
    simp only [zip_args, zip_args_stick es]
    rfl
  | t :: t2 :: rest, _, [], _ => rfl
  | t :: t2 :: rest, last, e :: es, _ => by
    have ih := zip_args_var (t2 :: rest) (some t) es (List.cons_ne_nil _ _)
    simp only [List.map_cons, List.cons_append] at ih ⊢
    simp only [zip_args, ih]
    rfl

theorem zipExtend_len : ∀ (tds : List TypeDesc) (elts : List Value), tds ≠ [] →
    (zipExtend tds elts).length = elts.length
  | [], _, h => absurd rfl h
  | [t], [], _ => rfl
  | [t], e :: es, _ => by
    rw [zipExtend, List.length_cons, List.length_cons,
      zipExtend_len [t] es (List.cons_ne_nil _ _)]
  | t :: t2 :: rest, [], _ => rfl
  | t :: t2 :: rest, e :: es, _ => by
    rw [zipExtend, List.length_cons, List.length_cons,
      zipExtend_len (t2 :: rest) es (List.cons_ne_nil _ _)]

theorem zipExtend_mem : ∀ (tds : List TypeDesc) (elts : List Value)
    (pr : TypeDesc × Value), pr ∈ zipExtend tds elts →
    pr.1 ∈ tds ∧ pr.2 ∈ elts
  | [], elts, pr, h => by rw [zipExtend] at h; cases h
  | [t], [], pr, h => by rw [zipExtend] at h; cases h
  | [t], e :: es, pr, h => by
    rw [zipExtend] at h
    rcases List.mem_cons.mp h with rfl | h2
    · exact ⟨List.mem_cons_self _ _, List.mem_cons_self _ _⟩
    · rcases zipExtend_mem [t] es pr h2 with ⟨h3, h4⟩
      exact ⟨h3, List.mem_cons_of_mem _ h4⟩
  | t :: t2 :: rest, [], pr, h => by rw [zipExtend] at h; cases h
  | t :: t2 :: rest, e :: es, pr, h => by
    rw [zipExtend] at h
    rcases List.mem_cons.mp h with rfl | h2
    · exact ⟨List.mem_cons_self _ _, List.mem_cons_self _ _⟩
    · rcases zipExtend_mem (t2 :: rest) es pr h2 with ⟨h3, h4⟩
      exact ⟨List.mem_cons_of_mem _ h3, List.mem_cons_of_mem _ h4⟩

theorem zipExtend_fst_zip : ∀ (tds : List TypeDesc) (elts elts2 : List Value),
    elts.length = elts2.length →
    ((zipExtend tds elts).map Prod.fst).zip elts2 = zipExtend tds elts2
  | [], _, elts2, _ => by rw [zipExtend, zipExtend]; rfl
  | [t], [], [], _ => rfl
  | [t], [], e2 :: es2, h => by cases h
  | [t], e :: es, [], h => by cases h
  | [t], e :: es, e2 :: es2, h => by
    rw [zipExtend, zipExtend, List.map_cons, List.zip_cons_cons,
      zipExtend_fst_zip [t] es es2 (by simpa using h)]
  | t :: t2 :: rest, [], [], _ => rfl
  | t :: t2 :: rest, [], e2 :: es2, h => by cases h
  | t :: t2 :: rest, e :: es, [], h => by cases h
  | t :: t2 :: rest, e :: es, e2 :: es2, h => by
    rw [zipExtend, zipExtend, List.map_cons, List.zip_cons_cons,
      zipExtend_fst_zip (t2 :: rest) es es2 (by simpa using h)]

theorem required_length_var (tds : List TypeDesc) :
    required_length (tds.map some ++ [Option.none]) =
      .ok ((tds.length : Int) - 1) := by
  simp only [required_length, List.getLast?_concat]
  congr 1
  rw [List.length_append, List.length_map]
  simp
  omega

/-! ## Scalar-strategy evaluations through the dispatcher -/

theorem decode_prim_eq (q : PrimT) (v : Value) (p : Path) :
    decode (.prim q) v p =
      .ok (if v.rt = q.rt then Outcome.ok v else .err ⟨.typeMismatch p⟩) := by
  rw [decode_eq_own]
  simp only [ownStrategy, decode_as_primitive, supertype_of]
  split
  · simp [absorb]
  · simp [absorb, isUnsupported]

theorem decode_float_eq (v : Value) (p : Path) :
    decode .float v p =
      .ok (match v with
           | .int n => Outcome.ok (.float (n : Rat))
           | .float q => Outcome.ok (.float q)
           | _ => .err ⟨.typeMismatch p⟩) := by
  rw [decode_eq_own]
  cases v <;> simp [ownStrategy, decode_as_primitive, supertype_of, absorb,
    isUnsupported]

theorem decode_newtype_eq (nm : String) (b : PrimT) (v : Value) (p : Path) :
    decode (.newtype nm b) v p =
      .ok (if isinstanceP v b then Outcome.ok v else .err ⟨.typeMismatch p⟩) := by
  rw [decode_eq_own]
  simp only [ownStrategy, decode_as_primitive, supertype_of]
  split
  · simp [absorb]
  · simp [absorb, isUnsupported]

theorem decode_any_eq (v : Value) (p : Path) :
    decode .any v p = .ok (.ok v) := by
  rw [decode_eq_own]
  simp [ownStrategy, decode_as_any, absorb]

theorem toTree_rt_prim (v : Value) (q : PrimT) (h : v.rt = q.rt) :
    toTree v = v := by
  cases v <;> cases q <;> first
    | rfl
    | (exfalso; simp [Value.rt, PrimT.rt] at h)

theorem toTree_isinstance (v : Value) (b : PrimT) (h : isinstanceP v b = true) :
    toTree v = v := by
  cases v <;> cases b <;> first
    | rfl
    | (exfalso; simp [isinstanceP] at h)

/-! ## Record-construction bookkeeping -/

theorem ctor_ok_missing {nm : String}
    {fields : List (String × TypeDesc × Option Value)}
    {params : List (String × Value)} {v : Value}
    (h : ctor nm fields params = .ok v) :
    ∀ f ∈ fields, f.2.2 = Option.none →
      params.any (fun q => q.1 = f.1) = true := by
  intro f hf hnone
  unfold ctor at h
  simp only [] at h
  split at h
  · next hemp =>
    rw [List.isEmpty_iff, List.map_eq_nil, List.filter_eq_nil] at hemp
    have := hemp f hf
    cases hany : params.any (fun q => q.1 = f.1) with
    | true => rfl
    | false =>
      exfalso
      exact this (by simp [hany, hnone])
  · cases h

theorem ctorFields_eq_map :
    ∀ (fields : List (String × TypeDesc × Option Value))
      (params : List (String × Value)),
    (∀ f ∈ fields, f.2.2 = Option.none →
      params.any (fun q => q.1 = f.1) = true) →
    ctorFields fields params =
      fields.map (fun f => (Value.str f.1, fieldVal f params))
  | [], _, _ => rfl
  | f :: fs, params, h => by
    rw [ctorFields, List.filterMap_cons]
    have ih := ctorFields_eq_map fs params
      (fun g hg => h g (List.mem_cons_of_mem _ hg))
    rw [show fs.filterMap (fun f =>
        match params.find? (fun q => q.1 = f.1) with
        | some q => some (Value.str f.1, q.2)
        | none => f.2.2.map (fun v => (Value.str f.1, v))) = ctorFields fs params
      from rfl, ih, List.map_cons]
    cases hfind : params.find? (fun q => q.1 = f.1) with
    | some q =>
      have hq : q.1 = f.1 := by
        have := List.find?_some hfind
        simpa using this
      simp only [fieldVal, hfind]
    | none =>
      cases hdf : f.2.2 with
      | none =>
        exfalso
        have hany := h f (List.mem_cons_self _ _) hdf
        rw [List.any_eq_true] at hany
        rcases hany with ⟨q, hq, hq2⟩
        have : params.find? (fun q => q.1 = f.1) ≠ none := by
          rw [Ne, List.find?_eq_none]
          intro hall
          exact absurd hq2 (by simp [hall q hq])
        exact this hfind
      | some d => simp only [hdf, Option.map_some', fieldVal, hfind, Option.getD]

theorem toTreeP_eq_map : ∀ (kvs : List (Value × Value)),
    toTreeP kvs = kvs.map (fun kv => (Value.str (pyStr kv.1), toTree kv.2))
  | [] => rfl
  | (k, v) :: rest => by rw [toTreeP, toTreeP_eq_map rest, List.map_cons]

theorem presentParams_all {fields : List (String × TypeDesc × Option Value)}
    {kvs : List (Value × Value)} {vals : String → Value}
    (h : ∀ f ∈ fields, hasKeyStr kvs f.1 = true) :
    presentParams fields kvs vals = fields.map (fun f => (f.1, vals f.1)) := by
  unfold presentParams
  induction fields with
  | nil => rfl
  | cons f fs ih =>
    rw [List.filterMap_cons, List.map_cons,
      if_pos (h f (List.mem_cons_self _ _)),
      ih (fun g hg => h g (List.mem_cons_of_mem _ hg))]

theorem find?_fields_self {β : Type}
    (F : (String × TypeDesc × Option Value) → β) :
    ∀ {fields : List (String × TypeDesc × Option Value)},
    (fields.map (fun f => f.1)).Nodup →
    ∀ {f : String × TypeDesc × Option Value}, f ∈ fields →
    (fields.map (fun g => (g.1, F g))).find? (fun q => q.1 = f.1) =
      some (f.1, F f) := by
  intro fields
  induction fields with
  | nil => intro _ f hf; cases hf
  | cons g gs ih =>
    intro hnodup f hf
    rw [List.map_cons, List.nodup_cons] at hnodup
    rw [List.map_cons]
    rcases List.mem_cons.mp hf with rfl | hf2
    · rw [List.find?_cons_of_pos]
      simp
    · rw [List.find?_cons_of_neg, ih hnodup.2 hf2]
      have hne : g.1 ≠ f.1 := by
        intro he
        exact hnodup.1 (he ▸ List.mem_map.mpr ⟨f, hf2, rfl⟩)
      simp [hne]

theorem find?_self_nodup :
    ∀ {fields : List (String × TypeDesc × Option Value)},
    (fields.map (fun f => f.1)).Nodup →
    ∀ {f : String × TypeDesc × Option Value}, f ∈ fields →
    fields.find? (fun g => g.1 = f.1) = some f := by
  intro fields
  induction fields with
  | nil => intro _ f hf; cases hf
  | cons g gs ih =>
    intro hnodup f hf
    rw [List.map_cons, List.nodup_cons] at hnodup
    rcases List.mem_cons.mp hf with rfl | hf2
    · rw [List.find?_cons_of_pos]
      simp
    · rw [List.find?_cons_of_neg, ih hnodup.2 hf2]
      have hne : g.1 ≠ f.1 := by
        intro he
        exact hnodup.1 (he ▸ List.mem_map.mpr ⟨f, hf2, rfl⟩)
      simp [hne]

theorem pyGet_fields_map {F : (String × TypeDesc × Option Value) → Value} :
    ∀ {fields : List (String × TypeDesc × Option Value)},
    (fields.map (fun f => f.1)).Nodup →
    ∀ {f : String × TypeDesc × Option Value}, f ∈ fields →
    pyGet (fields.map (fun g => (Value.str g.1, F g))) f.1 = F f := by
  intro fields
  induction fields with
  | nil => intro _ f hf; cases hf
  | cons g gs ih =>
    intro hnodup f hf
    rw [List.map_cons, List.nodup_cons] at hnodup
    rcases List.mem_cons.mp hf with rfl | hf2
    · rw [List.map_cons, pyGet, List.find?_cons_of_pos]
      · rfl
      · show vbeq (Value.str f.1) (Value.str f.1) = true
        show (f.1 == f.1) = true
        simp
    · have hne : g.1 ≠ f.1 := by
        intro he
        exact hnodup.1 (he ▸ List.mem_map.mpr ⟨f, hf2, rfl⟩)
      rw [List.map_cons, pyGet, List.find?_cons_of_neg]
      · exact ih hnodup.2 hf2
      · show ¬(vbeq (Value.str g.1) (Value.str f.1) = true)
        show ¬((g.1 == f.1) = true)
        simp [hne]

theorem hasKeyStr_fields_map {F : (String × TypeDesc × Option Value) → Value}
    {fields : List (String × TypeDesc × Option Value)}
    {f : String × TypeDesc × Option Value} (hf : f ∈ fields) :
    hasKeyStr (fields.map (fun g => (Value.str g.1, F g))) f.1 = true := by
  rw [hasKeyStr, List.any_eq_true]
  refine ⟨(Value.str f.1, F f), List.mem_map.mpr ⟨f, hf, rfl⟩, ?_⟩
  show vbeq (Value.str f.1) (Value.str f.1) = true
  show (f.1 == f.1) = true
  simp

theorem CParamsOk_names {kvs : List (Value × Value)} {p : Path} :
    ∀ {hints : List (String × TypeDesc)} {out : List (String × Value)},
    CParamsOk kvs p hints out → ∀ q ∈ out, q.1 ∈ hints.map Prod.fst := by
  intro hints out h
  induction h with
  | nil => intro q hq; cases hq
  | consPresent _ _ _ ih =>
    intro q hq
    rw [List.map_cons]
    rcases List.mem_cons.mp hq with rfl | hq2
    · exact List.mem_cons_self _ _
    · exact List.mem_cons_of_mem _ (ih q hq2)
  | consAbsent _ _ ih =>
    intro q hq
    rw [List.map_cons]
    exact List.mem_cons_of_mem _ (ih q hq)

theorem CParamsOk_find {kvs : List (Value × Value)} {p : Path} :
    ∀ {hints : List (String × TypeDesc)} {out : List (String × Value)},
    CParamsOk kvs p hints out → (hints.map Prod.fst).Nodup →
    ∀ {n : String} {d : TypeDesc}, (n, d) ∈ hints →
    (hasKeyStr kvs n = false ∧ out.find? (fun q => q.1 = n) = Option.none) ∨
    (∃ w, out.find? (fun q => q.1 = n) = some (n, w) ∧ hasKeyStr kvs n = true ∧
      decode d (pyGet kvs n) (p ++ [n]) = .ok (.ok w)) := by
  intro hints out h
  induction h with
  | nil => intro _ n d hm; cases hm
  | consPresent hp hd htail ih =>
    rename_i n0 d0 rest out0 v0
    intro hnodup n d hm
    rw [List.map_cons, List.nodup_cons] at hnodup
    rcases List.mem_cons.mp hm with heq | hm2
    · injection heq with h1 h2
      subst h1
      subst h2
      refine Or.inr ⟨v0, ?_, hp, hd⟩
      rw [List.find?_cons_of_pos]
      simp
    · have hne : n0 ≠ n := by
        intro he
        exact hnodup.1 (he ▸ List.mem_map.mpr ⟨(n, d), hm2, rfl⟩)
      rw [List.find?_cons_of_neg _ (by simp [hne])]
      exact ih hnodup.2 hm2
  | consAbsent hp htail ih =>
    rename_i n0 d0 rest out0
    intro hnodup n d hm
    rw [List.map_cons, List.nodup_cons] at hnodup
    rcases List.mem_cons.mp hm with heq | hm2
    · injection heq with h1 h2
      subst h1
      subst h2
      refine Or.inl ⟨hp, ?_⟩
      rw [List.find?_eq_none]
      intro x hx
      have := CParamsOk_names htail x hx
      simp only [decide_eq_true_eq]
      intro he
      exact hnodup.1 (he ▸ this)
    · exact ih hnodup.2 hm2

theorem clsVals_eq {fields : List (String × TypeDesc × Option Value)}
    {out : List (String × Value)}
    (hnodup : (fields.map (fun f => f.1)).Nodup)
    {f : String × TypeDesc × Option Value} (hf : f ∈ fields) :
    clsVals fields out f.1 = fieldVal f out := by
  rw [clsVals, find?_self_nodup hnodup hf]

/-! ## Idempotence, descriptor head by descriptor head -/

theorem idem_prim (q : PrimT) : IdemAt (.prim q) := by
  intro j p r hj hdec
  rw [decode_prim_eq] at hdec
  split at hdec
  · next hrt =>
    injection hdec with hdec
    injection hdec with hdec
    subst hdec
    rw [toTree_rt_prim j q hrt, decode_prim_eq, if_pos hrt]
  · injection hdec with hdec
    cases hdec

theorem idem_float : IdemAt .float := by
  intro j p r hj hdec
  have hgoal : ∀ q : Rat, decode .float (toTree (.float q)) p =
      .ok (.ok (.float q)) := by
    intro q
    have ht : toTree (.float q) = .float q := rfl
    rw [ht, decode_float_eq]
  cases j with
  | int n =>
    simp only [decode_float_eq] at hdec
    injection hdec with hdec
    injection hdec with hdec
    subst hdec
    exact hgoal _
  | float q =>
    simp only [decode_float_eq] at hdec
    injection hdec with hdec
    injection hdec with hdec
    subst hdec
    exact hgoal _
  | null => simp [decode_float_eq] at hdec
  | bool b => simp [decode_float_eq] at hdec
  | str s => simp [decode_float_eq] at hdec
  | date d => simp [decode_float_eq] at hdec
  | datetime d => simp [decode_float_eq] at hdec
  | list xs => simp [decode_float_eq] at hdec
  | tuple xs => simp [decode_float_eq] at hdec
  | dict kvs => simp [decode_float_eq] at hdec
  | record nm fs => simp [decode_float_eq] at hdec

theorem idem_newtype (nm : String) (b : PrimT) : IdemAt (.newtype nm b) := by
  intro j p r hj hdec
  rw [decode_newtype_eq] at hdec
  split at hdec
  · next hin =>
    injection hdec with hdec
    injection hdec with hdec
    subst hdec
    rw [toTree_isinstance j b hin, decode_newtype_eq, if_pos hin]
  · injection hdec with hdec
    cases hdec

theorem idem_list {e : TypeDesc} (ih : IdemAt e) : IdemAt (.list e) := by
  intro j p r hj hdec
  rw [decode_eq_own] at hdec
  simp only [ownStrategy] at hdec
  rw [absorb_ok] at hdec
  cases hi : iterElems j with
  | none => simp [decode_as_list, hi] at hdec
  | some elts =>
    simp only [decode_as_list, hi] at hdec
    rcases listLoop_ok elts 0 [] r hdec with ⟨vs, hlo, rfl⟩
    have htl : treeValL elts = true := iterElems_tree hj hi
    have hlo2 := LoopOk_redecode ih hlo htl
    rw [decode_eq_own]
    simp only [ownStrategy]
    have ht : toTree (.list ([] ++ vs)) = .list (vs.map toTree) := by
      rw [toTree, toTreeL_eq_map]
      rfl
    rw [ht]
    simp only [decode_as_list, iterElems]
    rw [listLoop_of_ok hlo2 []]
    rfl

theorem iterElems_none_tup {args : List (Option TypeDesc)} {j : Value} {p : Path}
    {r : Value} (hi : iterElems j = Option.none)
    (hdec : decode_as_tuple decode (.tup args) j p = .ok (.ok r)) : False := by
  cases j with
  | null => simp [decode_as_tuple] at hdec
  | str s => cases hi
  | list xs => cases hi
  | tuple xs => cases hi
  | dict kvs => cases hi
  | bool b => simp [decode_as_tuple, pyLen] at hdec
  | int n => simp [decode_as_tuple, pyLen] at hdec
  | float q => simp [decode_as_tuple, pyLen] at hdec
  | date d => simp [decode_as_tuple, pyLen] at hdec
  | datetime d => simp [decode_as_tuple, pyLen] at hdec
  | record nm fs => simp [decode_as_tuple, pyLen] at hdec

theorem idem_tupFixed {tds : List TypeDesc} (ih : ∀ t ∈ tds, IdemAt t) :
    IdemAt (.tup (tds.map some)) := by
  intro j p r hj hdec
  rw [decode_eq_own] at hdec
  simp only [ownStrategy] at hdec
  rw [absorb_ok] at hdec
  cases hi : iterElems j with
  | none => exact absurd hdec (fun h => iterElems_none_tup hi h)
  | some elts =>
    have hnn : j ≠ .null := by intro he; subst he; cases hi
    rw [decode_as_tuple_iter hnn hi] at hdec
    cases hr : required_length (tds.map some) with
    | error exn => simp [hr] at hdec
    | ok req =>
      have hreq := required_length_map_some hr
      subst hreq
      simp only [hr] at hdec
      by_cases hlt : ((elts.length : Int) < (tds.length : Int))
      · rw [if_pos hlt] at hdec
        simp at hdec
      · rw [if_neg hlt] at hdec
        simp only [zip_args_map_some] at hdec
        rcases tupleLoop_ok (tds.zip elts) 0 [] r hdec with ⟨vs, htl, rfl⟩
        have hlen : tds.length ≤ elts.length := by omega
        have hmem : ∀ pr ∈ tds.zip elts, IdemAt pr.1 ∧ treeVal pr.2 = true := by
          intro pr hpr
          obtain ⟨t, e⟩ := pr
          rcases List.of_mem_zip hpr with ⟨h1, h2⟩
          exact ⟨ih _ h1, treeValL_mem (iterElems_tree hj hi) _ h2⟩
        have htl2 := TLoopOk_redecode htl hmem
        rw [List.map_fst_zip tds elts hlen] at htl2
        have hvslen : vs.length = tds.length := by
          have h1 := TLoopOk_len htl
          rw [List.length_zip] at h1
          omega
        rw [decode_eq_own]
        simp only [ownStrategy]
        have ht : toTree (.tuple ([] ++ vs)) = .list (vs.map toTree) := by
          rw [toTree, toTreeL_eq_map]
          rfl
        rw [ht]
        rw [@decode_as_tuple_iter (tds.map some) (.list (vs.map toTree)) p
          (vs.map toTree) (by intro he; cases he) rfl]
        simp only [hr]
        rw [if_neg (by rw [List.length_map]; omega)]
        simp only [zip_args_map_some]
        rw [tupleLoop_of_ok htl2 []]
        rfl

theorem idem_tupVar {tds : List TypeDesc} (hne : tds ≠ [])
    (ih : ∀ t ∈ tds, IdemAt t) :
    IdemAt (.tup (tds.map some ++ [Option.none])) := by
  intro j p r hj hdec
  rw [decode_eq_own] at hdec
  simp only [ownStrategy] at hdec
  rw [absorb_ok] at hdec
  cases hi : iterElems j with
  | none => exact absurd hdec (fun h => iterElems_none_tup hi h)
  | some elts =>
    have hnn : j ≠ .null := by intro he; subst he; cases hi
    rw [decode_as_tuple_iter hnn hi] at hdec
    simp only [required_length_var] at hdec
    by_cases hlt : ((elts.length : Int) < (tds.length : Int) - 1)
    · rw [if_pos hlt] at hdec
      simp at hdec
    · rw [if_neg hlt] at hdec
      simp only [zip_args_var tds Option.none elts hne] at hdec
      rcases tupleLoop_ok (zipExtend tds elts) 0 [] r hdec with ⟨vs, htl, rfl⟩
      have hmem : ∀ pr ∈ zipExtend tds elts, IdemAt pr.1 ∧ treeVal pr.2 = true := by
        intro pr hpr
        rcases zipExtend_mem tds elts pr hpr with ⟨h1, h2⟩
        exact ⟨ih _ h1, treeValL_mem (iterElems_tree hj hi) _ h2⟩
      have htl2 := TLoopOk_redecode htl hmem
      have hlen1 : vs.length = elts.length := by
        have h1 := TLoopOk_len htl
        rw [zipExtend_len tds elts hne] at h1
        omega
      rw [zipExtend_fst_zip tds elts (vs.map toTree)
        (by rw [List.length_map]; omega)] at htl2
      rw [decode_eq_own]
      simp only [ownStrategy]
      have ht : toTree (.tuple ([] ++ vs)) = .list (vs.map toTree) := by
        rw [toTree, toTreeL_eq_map]
        rfl
      rw [ht]
      rw [@decode_as_tuple_iter (tds.map some ++ [Option.none])
        (.list (vs.map toTree)) p (vs.map toTree) (by intro he; cases he) rfl]
      simp only [required_length_var]
      rw [if_neg (by rw [List.length_map]; omega)]
      simp only [zip_args_var tds Option.none (vs.map toTree) hne]
      rw [tupleLoop_of_ok htl2 []]
      rfl

theorem idem_dict {K V : TypeDesc} (hV : IdemAt V)
    (hkid : ∀ s pp r, decode K (.str s) pp = .ok (.ok r) → r = .str s) :
    IdemAt (.dict K V) := by
  intro j p r hj hdec
  rw [decode_eq_own] at hdec
  simp only [ownStrategy] at hdec
  rw [absorb_ok] at hdec
  cases j with
  | dict kvs =>
    simp only [decode_as_dict] at hdec
    rcases dictLoop_ok kvs [] r hdec with ⟨out, hdl, rfl⟩
    have htree : treeValP kvs = true := hj
    have hkeys := DLoop_keys hkid hdl htree
    have hpw : List.Pairwise (fun a b : Value × Value => vbeq a.1 b.1 = false) out := by
      have h1 : (kvs.map Prod.fst).Pairwise (fun x y => vbeq x y = false) :=
        (List.pairwise_map).mpr (treeValP_pairwise htree)
      rw [← hkeys] at h1
      exact (List.pairwise_map).mp h1
    have hfold : out.foldl (fun a kv => insertKV a kv.1 kv.2)
        ([] : List (Value × Value)) = out := by
      have h2 := foldl_insert_fresh out []
        (fun kv _ kv2 hkv2 => absurd hkv2 (List.not_mem_nil _)) hpw
      simpa using h2
    rw [hfold]
    have hdl2 := DLoop_redecode hkid hV hdl htree
    rw [decode_eq_own]
    simp only [ownStrategy]
    have ht : toTree (.dict out) = .dict (toTreeP out) := by rw [toTree]
    rw [ht]
    simp only [decode_as_dict]
    rw [dictLoop_of_ok hdl2 []]
    rw [hfold]
    rfl
  | null => simp [decode_as_dict] at hdec
  | bool b => simp [decode_as_dict] at hdec
  | int n => simp [decode_as_dict] at hdec
  | float q => simp [decode_as_dict] at hdec
  | str s => simp [decode_as_dict] at hdec
  | date d => simp [decode_as_dict] at hdec
  | datetime d => simp [decode_as_dict] at hdec
  | list xs => simp [decode_as_dict] at hdec
  | tuple xs => simp [decode_as_dict] at hdec
  | record nm fs => simp [decode_as_dict] at hdec

theorem idem_cls {nm : String} {fields : List (String × TypeDesc × Option Value)}
    (ih : ∀ f ∈ fields, IdemAt f.2.1)
    (hnodup : (fields.map (fun f => f.1)).Nodup)
    (hdef : ∀ f ∈ fields, ∀ v, f.2.2 = some v →
      ∀ pp, decode f.2.1 (toTree v) pp = .ok (.ok v)) :
    IdemAt (.cls nm fields) := by
  intro j p r hj hdec
  rw [decode_eq_own] at hdec
  simp only [ownStrategy] at hdec
  rw [absorb_ok] at hdec
  cases j with
  | dict kvs =>
    have htree : treeValP kvs = true := hj
    cases hcp0 : classParams decode kvs p (fields.map (fun f => (f.1, f.2.1))) with
    | error exn => simp [decode_as_class, hcp0] at hdec
    | ok params =>
      cases hfe : firstErr params with
      | some e => simp [decode_as_class, hcp0, hfe] at hdec
      | none =>
        cases hct : ctor nm fields (params.filterMap (fun q =>
            match q.2 with | .ok v => some (q.1, v) | .err _ => none)) with
        | error e2 => simp [decode_as_class, hcp0, hfe, hct] at hdec
        | ok obj =>
          have hor : obj = r := by
            simp only [decode_as_class, hcp0, hfe, hct] at hdec
            injection hdec with hdec
            injection hdec with hdec
          subst hor
          rcases classParams_extract (fields.map (fun f => (f.1, f.2.1)))
            params hcp0 hfe with ⟨out, hpar, hcp⟩
          subst hpar
          rw [extract_ok_map out] at hct
          have hmiss := ctor_ok_missing hct
          have hshape := ctor_ok_shape hct
          subst hshape
          have hnames : ((fields.map (fun f => (f.1, f.2.1))).map Prod.fst).Nodup := by
            rw [List.map_map]
            exact hnodup
          have hvals : ∀ f ∈ fields, hasKeyStr (fields.map (fun g =>
              (Value.str g.1, toTree (fieldVal g out)))) f.1 = true →
              decode f.2.1 (pyGet (fields.map (fun g =>
                (Value.str g.1, toTree (fieldVal g out)))) f.1) (p ++ [f.1]) =
              .ok (.ok (clsVals fields out f.1)) := by
            intro f hf _
            rw [pyGet_fields_map hnodup hf, clsVals_eq hnodup hf]
            have hmemh : (f.1, f.2.1) ∈ fields.map (fun f => (f.1, f.2.1)) :=
              List.mem_map.mpr ⟨f, hf, rfl⟩
            rcases CParamsOk_find hcp hnames hmemh with
              ⟨hnk, hfnone⟩ | ⟨w, hfsome, hk, hd⟩
            · have hfv : fieldVal f out = f.2.2.getD .null := by
                simp only [fieldVal, hfnone]
              cases hdf : f.2.2 with
              | none =>
                exfalso
                have hany2 := hmiss f hf hdf
                rw [List.any_eq_true] at hany2
                rcases hany2 with ⟨q, hq, hq2⟩
                rw [List.find?_eq_none] at hfnone
                exact hfnone q hq hq2
              | some d =>
                rw [hfv, hdf]
                exact hdef f hf d hdf (p ++ [f.1])
            · have hfv : fieldVal f out = w := by
                simp only [fieldVal, hfsome]
              rw [hfv]
              exact ih f hf (pyGet kvs f.1) (p ++ [f.1]) w (pyGet_tree htree hk) hd
          have ht2 : toTree (.record nm (ctorFields fields out)) =
              .dict (fields.map (fun g =>
                (Value.str g.1, toTree (fieldVal g out)))) := by
            rw [toTree, ctorFields_eq_map fields out hmiss, toTreeP_eq_map,
              List.map_map]
            rfl
          rw [ht2]
          rw [decode_cls_all_ok nm fields _ p (clsVals fields out) hvals]
          rw [presentParams_all (fun f hf => hasKeyStr_fields_map hf)]
          have hprov : ∀ f ∈ fields,
              (fields.map (fun g => (g.1, clsVals fields out g.1))).any
                (fun q => q.1 = f.1) = true := by
            intro f hf
            rw [List.any_eq_true]
            exact ⟨(f.1, clsVals fields out f.1),
              List.mem_map.mpr ⟨f, hf, rfl⟩, by simp⟩
          have hctor2 := @ctor_all_provided nm fields
            (fields.map (fun g => (g.1, clsVals fields out g.1)))
            (fun f hf _ => hprov f hf)
          simp only [hctor2]
          have hcf : ctorFields fields
              (fields.map (fun g => (g.1, clsVals fields out g.1))) =
              ctorFields fields out := by
            rw [ctorFields_eq_map fields _ (fun f hf _ => hprov f hf),
              ctorFields_eq_map fields out hmiss]
            apply List.map_congr_left
            intro f hf
            have hfind := find?_fields_self (fun g => clsVals fields out g.1)
              hnodup hf
            simp only [fieldVal, hfind]
            rw [clsVals_eq hnodup hf]
            rfl
          rw [hcf]
  | null => simp [decode_as_class] at hdec
  | bool b => simp [decode_as_class] at hdec
  | int n => simp [decode_as_class] at hdec
  | float q => simp [decode_as_class] at hdec
  | str s => simp [decode_as_class] at hdec
  | date d => simp [decode_as_class] at hdec
  | datetime d => simp [decode_as_class] at hdec
  | list xs => simp [decode_as_class] at hdec
  | tuple xs => simp [decode_as_class] at hdec
  | record nm2 fs => simp [decode_as_class] at hdec

theorem idem_union2 {a b : TypeDesc} (iha : IdemAt a) (ihb : IdemAt b)
    (hga : is_typevar a = false) (hgb : is_typevar b = false)
    (hst : ∀ jv pp e r, treeVal jv = true → decode a jv pp = .ok (.err e) →
      decode b jv pp = .ok (.ok r) →
      ∃ e2, decode a (toTree r) pp = .ok (.err e2)) :
    IdemAt (.union [a, b]) := by
  intro j p r hj hdec
  have hany : ([a, b].any is_typevar) = false := by
    simp [hga, hgb]
  rw [decode_eq_own] at hdec
  simp only [ownStrategy] at hdec
  rw [absorb_ok] at hdec
  simp only [decode_as_union, hany, Bool.false_eq_true, if_false] at hdec
  cases hda : decode a j p with
  | error exn => simp [unionLoop, hda] at hdec
  | ok o =>
    cases o with
    | ok v =>
      have hrv : v = r := by
        simp only [unionLoop, hda] at hdec
        injection hdec with hdec
        injection hdec with hdec
      subst hrv
      have hred := iha j p v hj hda
      rw [decode_eq_own]
      simp only [ownStrategy]
      simp only [decode_as_union, hany, Bool.false_eq_true, if_false]
      simp only [unionLoop, hred]
      rfl
    | err e =>
      have hdb : decode b j p = .ok (.ok r) := by
        simpa only [unionLoop, hda] using hdec
      rcases hst j p e r hj hda hdb with ⟨e2, he2⟩
      have hredb := ihb j p r hj hdb
      rw [decode_eq_own]
      simp only [ownStrategy]
      simp only [decode_as_union, hany, Bool.false_eq_true, if_false]
      simp only [unionLoop, he2, hredb]
      rfl

theorem idem_any : IdemAt .any := by
  intro j p r hj hdec
  rw [decode_any_eq] at hdec
  injection hdec with hdec
  injection hdec with hdec
  subst hdec
  rw [toTree_tree j hj, decode_any_eq]

/-- C9 (amended): decoding is idempotent through the generic-tree round trip
for every `Good` descriptor — that is, provided each mapping key descriptor
decodes string keys only to themselves, each record has distinct field names
and defaults that survive the round trip, and sum types are stable
two-alternative sums (the first alternative keeps failing on the round-tripped
output of the second).  Under these side conditions, whenever
`decode t j p = Ok r` for a generic-tree input `j`, re-decoding the output's
generic-tree representation yields the same value:
`decode t (toTree r) p = Ok r`.  The unrestricted claim is refuted by
`claim_C9_counterexample`. -/
theorem claim_C9 {t : TypeDesc} (hg : Good t) : IdemAt t := by
  induction hg with
  | prim q => exact idem_prim q
  | flt => exact idem_float
  | newtype nm b => exact idem_newtype nm b
  | any => exact idem_any
  | list _ ih => exact idem_list ih
  | tupFixed _ ih => exact idem_tupFixed ih
  | tupVar hne _ ih => exact idem_tupVar hne ih
  | dict _ hkid ih => exact idem_dict ih hkid
  | cls _ hnodup hdef ih => exact idem_cls ih hnodup hdef
  | unionTwo hga hgb hst iha ihb =>
    exact idem_union2 iha ihb (Good_not_typevar hga) (Good_not_typevar hgb) hst

/-- Witness for C9: the record descriptor `{name: text}` decodes
`{"name": "Al"}` to a record, and re-decoding that record's generic-tree
representation yields the same record. -/
theorem claim_C9_witness :
    decode (.cls "P" [("name", .prim .pstr, Option.none)])
        (.dict [(.str "name", .str "Al")]) [] =
      .ok (.ok (.record "P" [(.str "name", .str "Al")]))
    ∧ decode (.cls "P" [("name", .prim .pstr, Option.none)])
        (toTree (.record "P" [(.str "name", .str "Al")])) [] =
      .ok (.ok (.record "P" [(.str "name", .str "Al")])) :=
  ⟨rfl,
    claim_C9
      (Good.cls
        (by
          intro f hf
          rcases List.mem_singleton.mp hf with rfl
          exact Good.prim .pstr)
        (by decide)
        (by
          intro f hf v hv
          rcases List.mem_singleton.mp hf with rfl
          cases hv))
      (.dict [(.str "name", .str "Al")]) []
      (.record "P" [(.str "name", .str "Al")]) rfl rfl⟩

end TypedJson
